import Mathlib

/-!
Verification of the robust-binary-search core (RangeMap, Searcher,
FlakinessTracker, DAG, CompressedDAGSearcher, CompressedDAGFlakinessTracker).

The Rust source is shallowly embedded: `f64` is modelled by `ℚ` (all the
operations appearing in the claims are field operations, `min`, `max`, `abs`
and truncating casts, which are exact on rationals), except for the one
square root in `CompressedDAGFlakinessTracker::flakiness`, which is modelled
over `ℝ` with `Real.sqrt`.  `usize` is modelled by `ℕ`.  Rust panics are
modelled by `Option`-returning variants of the panicking functions.
-/

namespace RobustBS

/-! ## RangeMap (src/robust-binary-search/src/range_map.rs)

A `RangeMapEntry` is `(offset, len, value)`; a `RangeMap` is the ordered list
of entries.  `expandList` recovers the conceptual flat vector of individual
values (the documented semantics of the structure). -/

structure RangeMapEntry (α : Type) where
  offset : ℕ
  len : ℕ
  value : α
deriving Repr, DecidableEq

/-- `RangeMapEntry::end`: `offset + len` (`end` is a Lean keyword). -/
def RangeMapEntry.endIdx {α : Type} (e : RangeMapEntry α) : ℕ := e.offset + e.len

structure RangeMap (α : Type) where
  values : List (RangeMapEntry α)
deriving Repr, DecidableEq

/-- `RangeMap::new(size, value)`: a single entry spanning the whole range. -/
def RangeMap.new {α : Type} (size : ℕ) (v : α) : RangeMap α :=
  ⟨[⟨0, size, v⟩]⟩

/-- `RangeMap::len`: `values[values.len() - 1].end()` (0 for the impossible
empty list). -/
def RangeMap.size {α : Type} (m : RangeMap α) : ℕ :=
  match m.values.getLast? with
  | some e => e.endIdx
  | none => 0

/-- `RangeMap::range_for_index` without the final panicking index operation:
the first entry `w` with `index >= w.offset && index < w.end()`, scanning in
order as `range_index` does. -/
def RangeMap.rangeForIndex? {α : Type} (m : RangeMap α) (index : ℕ) :
    Option (RangeMapEntry α) :=
  m.values.find? (fun w => decide (w.offset ≤ index) && decide (index < w.endIdx))

/-- `RangeMap::_split` together with the `split_at_mut` of `RangeMap::split`:
returns the entry lists strictly left of the cut and from the cut rightwards.
Mirrors the scan of `_split`: an entry starting exactly at `index` stops the
scan; an entry strictly containing `index` is divided in two. -/
def splitEntryList {α : Type} (index : ℕ) :
    List (RangeMapEntry α) → List (RangeMapEntry α) × List (RangeMapEntry α)
  | [] => ([], [])
  | w :: rest =>
    if w.offset = index then
      ([], w :: rest)
    else if index > w.offset ∧ index < w.endIdx then
      ([⟨w.offset, index - w.offset, w.value⟩],
        ⟨index, w.endIdx - index, w.value⟩ :: rest)
    else
      let p := splitEntryList index rest
      (w :: p.1, p.2)

/-- The state of the map after `split(index)` (left and right pieces glued
back together). -/
def RangeMap.splitMap {α : Type} (m : RangeMap α) (index : ℕ) : RangeMap α :=
  let p := splitEntryList index m.values
  ⟨p.1 ++ p.2⟩

/-! ### Well-formedness and expansion semantics -/

/-- The documented invariant of `RangeMap.values` starting at `off` and
covering up to `size`: offsets chain, lengths are positive, the last entry
ends at `size`. -/
def chainFrom {α : Type} : ℕ → ℕ → List (RangeMapEntry α) → Prop
  | off, size, [] => off = size
  | off, size, e :: rest => e.offset = off ∧ 0 < e.len ∧ chainFrom (off + e.len) size rest

instance decChainFrom {α : Type} :
    ∀ (off size : ℕ) (l : List (RangeMapEntry α)), Decidable (chainFrom off size l)
  | off, size, [] => by unfold chainFrom; infer_instance
  | off, size, e :: rest => by
      unfold chainFrom
      have := decChainFrom (α := α) (off + e.len) size rest
      infer_instance

/-- A well-formed `RangeMap` over `[0, size)`. -/
def RangeMap.WF {α : Type} (m : RangeMap α) (size : ℕ) : Prop :=
  chainFrom 0 size m.values

instance {α : Type} (m : RangeMap α) (size : ℕ) : Decidable (m.WF size) := by
  unfold RangeMap.WF; infer_instance

/-- Expansion of a single entry into the conceptual vector of individual
values. -/
def RangeMapEntry.expandE {α : Type} (e : RangeMapEntry α) : List α :=
  List.replicate e.len e.value

/-- Expansion of an entry list into the conceptual flat vector. -/
def expandList {α : Type} : List (RangeMapEntry α) → List α
  | [] => []
  | e :: rest => e.expandE ++ expandList rest

/-- Expansion of a map. -/
def RangeMap.expand {α : Type} (m : RangeMap α) : List α := expandList m.values

theorem expandList_append {α : Type} (a b : List (RangeMapEntry α)) :
    expandList (a ++ b) = expandList a ++ expandList b := by
  induction a with
  | nil => rfl
  | cons e rest ih => simp [expandList, ih, List.append_assoc]

theorem chainFrom_off_le {α : Type} :
    ∀ {off size : ℕ} {l : List (RangeMapEntry α)}, chainFrom off size l → off ≤ size := by
  intro off size l
  induction l generalizing off with
  | nil => intro h; exact Nat.le_of_eq h
  | cons e rest ih =>
      intro h
      obtain ⟨-, -, h3⟩ := h
      exact Nat.le_trans (Nat.le_add_right _ _) (ih h3)

theorem length_expandList {α : Type} :
    ∀ {off size : ℕ} {l : List (RangeMapEntry α)},
      chainFrom off size l → (expandList l).length = size - off := by
  intro off size l
  induction l generalizing off with
  | nil =>
      intro h
      have hh : off = size := h
      simp [expandList, hh]
  | cons e rest ih =>
      intro h
      obtain ⟨h1, h2, h3⟩ := h
      have hle : off + e.len ≤ size := chainFrom_off_le h3
      simp [expandList, RangeMapEntry.expandE, ih h3, h1]
      omega

/-- Splitting never changes the expanded content. -/
theorem expand_splitEntryList {α : Type} (index : ℕ) :
    ∀ (l : List (RangeMapEntry α)),
      expandList (splitEntryList index l).1 ++ expandList (splitEntryList index l).2
        = expandList l := by
  intro l
  induction l with
  | nil => rfl
  | cons w rest ih =>
      by_cases h1 : w.offset = index
      · simp [splitEntryList, h1, expandList]
      · by_cases h2 : index > w.offset ∧ index < w.endIdx
        · have hlen : (index - w.offset) + (w.endIdx - index) = w.len := by
            unfold RangeMapEntry.endIdx at h2 ⊢
            omega
          simp only [splitEntryList, if_neg h1, if_pos h2]
          simp [expandList, RangeMapEntry.expandE]
          rw [← List.append_assoc, ← List.replicate_add, hlen]
        · simp only [splitEntryList, if_neg h1, if_neg h2]
          simp [expandList, List.append_assoc, ih]

/-- Splitting at `index` cuts a chained list into two chained lists meeting at
`min index size` (when the cut is at or after `off`). -/
theorem chain_splitEntryList {α : Type} :
    ∀ {off size index : ℕ} {l : List (RangeMapEntry α)},
      chainFrom off size l → off ≤ index →
      chainFrom off (min index size) (splitEntryList index l).1 ∧
        chainFrom (min index size) size (splitEntryList index l).2 := by
  intro off size index l
  induction l generalizing off with
  | nil =>
      intro h hle
      have : off = size := h
      subst this
      have : min index off = off := Nat.min_eq_right hle
      simp [splitEntryList, chainFrom, this]
  | cons w rest ih =>
      intro h hle
      obtain ⟨h1, h2, h3⟩ := h
      by_cases hc1 : w.offset = index
      · have hix : index = off := by omega
        subst hix
        have hmin : min index size = index := Nat.min_eq_left (chainFrom_off_le (l := w :: rest) ⟨h1, h2, h3⟩)
        simp [splitEntryList, hc1, chainFrom, hmin, h1, h2, h3]
      · by_cases hc2 : index > w.offset ∧ index < w.endIdx
        · have hend : w.endIdx ≤ size := by
            have := chainFrom_off_le h3
            unfold RangeMapEntry.endIdx
            omega
          have hmin : min index size = index := Nat.min_eq_left (by omega)
          simp only [splitEntryList, if_neg hc1, if_pos hc2]
          refine ⟨?_, ?_⟩
          · simp [chainFrom, h1]
            omega
          · simp only [chainFrom, hmin]
            refine ⟨by trivial, by omega, ?_⟩
            have h4 : index + (w.endIdx - index) = w.endIdx := by omega
            rw [h4]
            show chainFrom w.endIdx size rest
            unfold RangeMapEntry.endIdx
            rw [h1]
            exact h3
        · have hge : off + w.len ≤ index := by
            unfold RangeMapEntry.endIdx at hc2
            omega
          simp only [splitEntryList, if_neg hc1, if_neg hc2]
          have hr := ih h3 (by omega)
          exact ⟨⟨h1, h2, hr.1⟩, hr.2⟩

/-! ## Searcher weight updates (src/robust-binary-search/src/lib.rs) -/

/-- In-place `*w.value_mut() *= c` over a whole entry list. -/
def scaleEntries (c : ℚ) (l : List (RangeMapEntry ℚ)) : List (RangeMapEntry ℚ) :=
  l.map (fun e => ⟨e.offset, e.len, e.value * c⟩)

/-- `*left.rev().next().unwrap().value_mut() *= c`: multiply the value of the
last entry (no-op on the impossible empty list, where the Rust code panics). -/
def mulLastEntry (c : ℚ) : List (RangeMapEntry ℚ) → List (RangeMapEntry ℚ)
  | [] => []
  | [e] => [⟨e.offset, e.len, e.value * c⟩]
  | e :: e2 :: rest => e :: mulLastEntry c (e2 :: rest)

/-- `Σ w.value() * w.len()` over the entries, in iteration order. -/
def massList : List (RangeMapEntry ℚ) → ℚ
  | [] => 0
  | e :: rest => e.value * (e.len : ℚ) + massList rest

/-- Divide every entry value by the mass (`report_with_stiffness` lines
204–212). -/
def normalizeEntries (l : List (RangeMapEntry ℚ)) : List (RangeMapEntry ℚ) :=
  l.map (fun e => ⟨e.offset, e.len, e.value / massList l⟩)

/-- `report_range(weights, index, heads, stiffness)` (lib.rs 162–176):
if heads, multiply `[0, index)` then the last entry left of `index+1`;
if tails, split at `index` and multiply `[index+1, ..)`. -/
def reportRange (m : RangeMap ℚ) (index : ℕ) (heads : Bool) (stiffness : ℚ) :
    RangeMap ℚ :=
  if heads then
    let p1 := splitEntryList index m.values
    let l1 := scaleEntries (1 + stiffness) p1.1
    let p2 := splitEntryList (index + 1) (l1 ++ p1.2)
    ⟨mulLastEntry (1 + stiffness) p2.1 ++ p2.2⟩
  else
    let p1 := splitEntryList index m.values
    let p2 := splitEntryList (index + 1) (p1.1 ++ p1.2)
    ⟨p2.1 ++ scaleEntries (1 + stiffness) p2.2⟩

/-- `Searcher` (lib.rs 180–183). -/
structure Searcher where
  weights : RangeMap ℚ
  len : ℕ
deriving Repr, DecidableEq

/-- `Searcher::new(len)`: a uniform map over `len + 1` indices. -/
def Searcher.new (len : ℕ) : Searcher :=
  ⟨RangeMap.new (len + 1) (1 / ((len : ℚ) + 1)), len⟩

/-- `Searcher::report_with_stiffness` without the leading assert: update the
weights and renormalize by the entry mass. -/
def Searcher.reportWithStiffness (s : Searcher) (index : ℕ) (heads : Bool)
    (stiffness : ℚ) : Searcher :=
  ⟨⟨normalizeEntries (reportRange s.weights index heads stiffness).values⟩, s.len⟩

/-- `Searcher::report_with_stiffness` including the `assert!(index < self.len)`
panic, modelled as `none`. -/
def Searcher.reportWithStiffnessChecked (s : Searcher) (index : ℕ) (heads : Bool)
    (stiffness : ℚ) : Option Searcher :=
  if index < s.len then some (s.reportWithStiffness index heads stiffness) else none

/-- `Searcher::likelihood`: value of the entry containing `index`; panics
(`none`) when `range_index` finds no entry. -/
def Searcher.likelihoodChecked (s : Searcher) (index : ℕ) : Option ℚ :=
  (s.weights.rangeForIndex? index).map (fun e => e.value)

theorem expand_scaleEntries (c : ℚ) (l : List (RangeMapEntry ℚ)) :
    expandList (scaleEntries c l) = (expandList l).map (· * c) := by
  induction l with
  | nil => rfl
  | cons e rest ih =>
      simp [scaleEntries, expandList, RangeMapEntry.expandE, List.map_replicate] at ih ⊢
      exact ih

theorem chain_scaleEntries {off size : ℕ} (c : ℚ) {l : List (RangeMapEntry ℚ)}
    (h : chainFrom off size l) : chainFrom off size (scaleEntries c l) := by
  induction l generalizing off with
  | nil => exact h
  | cons e rest ih =>
      obtain ⟨h1, h2, h3⟩ := h
      exact ⟨h1, h2, ih h3⟩

theorem massList_eq_sum_expand (l : List (RangeMapEntry ℚ)) :
    massList l = (expandList l).sum := by
  induction l with
  | nil => rfl
  | cons e rest ih =>
      simp [massList, expandList, RangeMapEntry.expandE, ih, List.sum_replicate,
        nsmul_eq_mul, mul_comm]

theorem massList_append (a b : List (RangeMapEntry ℚ)) :
    massList (a ++ b) = massList a + massList b := by
  induction a with
  | nil => simp [massList]
  | cons e rest ih => simp [massList, ih]; ring

theorem expand_normalizeEntries (l : List (RangeMapEntry ℚ)) :
    expandList (normalizeEntries l) = (expandList l).map (· / massList l) := by
  unfold normalizeEntries
  generalize massList l = s
  induction l with
  | nil => rfl
  | cons e rest ih =>
      simp [expandList, RangeMapEntry.expandE, List.map_replicate] at ih ⊢
      exact ih

theorem chain_normalizeEntries {size : ℕ} {l : List (RangeMapEntry ℚ)}
    (h : chainFrom 0 size l) : chainFrom 0 size (normalizeEntries l) := by
  unfold normalizeEntries
  generalize massList l = s
  suffices hgen : ∀ off, chainFrom off size l →
      chainFrom off size (l.map (fun e => (⟨e.offset, e.len, e.value / s⟩ : RangeMapEntry ℚ))) from
    hgen 0 h
  clear h
  induction l with
  | nil => intro off h; exact h
  | cons e rest ih =>
      intro off h
      obtain ⟨h1, h2, h3⟩ := h
      exact ⟨h1, h2, ih _ h3⟩

/-! ### Split and update lemmas at the level of the expanded vector -/

theorem chain_append_of {α : Type} :
    ∀ {off m size : ℕ} {x y : List (RangeMapEntry α)},
      chainFrom off m x → chainFrom m size y → chainFrom off size (x ++ y) := by
  intro off m size x y hx hy
  induction x generalizing off with
  | nil =>
      have : off = m := hx
      subst this
      exact hy
  | cons e rest ih =>
      obtain ⟨h1, h2, h3⟩ := hx
      exact ⟨h1, h2, ih h3⟩

theorem splitEntryList_bdry {α : Type} {i size : ℕ} {y : List (RangeMapEntry α)}
    (h : chainFrom i size y) : splitEntryList i y = ([], y) := by
  cases y with
  | nil => rfl
  | cons f rest =>
      obtain ⟨h1, -, -⟩ := h
      simp [splitEntryList, h1]

theorem splitEntryList_append_left {α : Type} :
    ∀ {off m i : ℕ} {x y : List (RangeMapEntry α)},
      chainFrom off m x → m ≤ i →
      splitEntryList i (x ++ y)
        = (x ++ (splitEntryList i y).1, (splitEntryList i y).2) := by
  intro off m i x y hx hmi
  induction x generalizing off with
  | nil => simp
  | cons e rest ih =>
      obtain ⟨h1, h2, h3⟩ := hx
      have hend : e.endIdx ≤ m := by
        have := chainFrom_off_le h3
        unfold RangeMapEntry.endIdx
        omega
      have hne : ¬ e.offset = i := by
        unfold RangeMapEntry.endIdx at hend
        omega
      have hnc : ¬ (i > e.offset ∧ i < e.endIdx) := by
        intro hc
        omega
      simp only [List.cons_append, splitEntryList, if_neg hne, if_neg hnc,
        List.append_eq, ih h3]

theorem split_take_drop {α : Type} {off size index : ℕ} {l : List (RangeMapEntry α)}
    (h : chainFrom off size l) (h0 : off ≤ index) (h1 : index ≤ size) :
    expandList (splitEntryList index l).1 = (expandList l).take (index - off) ∧
      expandList (splitEntryList index l).2 = (expandList l).drop (index - off) := by
  have hc := chain_splitEntryList h h0
  have hmin : min index size = index := Nat.min_eq_left h1
  rw [hmin] at hc
  have hlen : (expandList (splitEntryList index l).1).length = index - off :=
    length_expandList hc.1
  have hcontent := expand_splitEntryList index l
  constructor
  · rw [← hcontent, List.take_left' hlen]
  · rw [← hcontent, List.drop_left' hlen]

theorem mulLastEntry_append_singleton (c : ℚ) :
    ∀ (x : List (RangeMapEntry ℚ)) (e : RangeMapEntry ℚ),
      mulLastEntry c (x ++ [e]) = x ++ [⟨e.offset, e.len, e.value * c⟩] := by
  intro x e
  induction x with
  | nil => rfl
  | cons f rest ih =>
      cases rest with
      | nil => simp [mulLastEntry]
      | cons g rest2 => simp [mulLastEntry] at ih ⊢; exact ih

/-- Right piece of a split at `index < size` starts with an entry at offset
`index`. -/
theorem split_right_head {α : Type} {off size index : ℕ} {l : List (RangeMapEntry α)}
    (h : chainFrom off size l) (h0 : off ≤ index) (h1 : index < size) :
    ∃ e rest, (splitEntryList index l).2 = e :: rest ∧ e.offset = index ∧ 0 < e.len ∧
      chainFrom e.endIdx size rest := by
  have hc := (chain_splitEntryList h h0).2
  have hmin : min index size = index := Nat.min_eq_left (Nat.le_of_lt h1)
  rw [hmin] at hc
  cases hh : (splitEntryList index l).2 with
  | nil =>
      rw [hh] at hc
      exact absurd hc (by intro hc2; have : index = size := hc2; omega)
  | cons e rest =>
      rw [hh] at hc
      obtain ⟨hA, hB, hC⟩ := hc
      exact ⟨e, rest, rfl, hA, hB, by unfold RangeMapEntry.endIdx; rw [hA]; exact hC⟩

/-- Expansion behaviour of the heads branch of `report_range`: the individual
weights at indices `0..=index` are multiplied by `1 + stiffness`. -/
theorem reportRange_heads_spec {size index : ℕ} {m : RangeMap ℚ} (st : ℚ)
    (h : chainFrom 0 size m.values) (hix : index + 1 ≤ size) :
    chainFrom 0 size (reportRange m index true st).values ∧
      expandList (reportRange m index true st).values
        = ((expandList m.values).take (index + 1)).map (· * (1 + st))
            ++ (expandList m.values).drop (index + 1) := by
  have hidx : index < size := hix
  have hsplit1 := chain_splitEntryList h (Nat.zero_le index)
  rw [Nat.min_eq_left (Nat.le_of_lt hidx)] at hsplit1
  have htd1 := split_take_drop h (Nat.zero_le index) (Nat.le_of_lt hidx)
  rw [Nat.sub_zero] at htd1
  obtain ⟨e, rest, hrest, heoff, helen, hechain⟩ := split_right_head h (Nat.zero_le index) hidx
  have hscale : chainFrom 0 index (scaleEntries (1 + st) (splitEntryList index m.values).1) :=
    chain_scaleEntries _ hsplit1.1
  -- the split of the combined list at index + 1
  have happ := splitEntryList_append_left (i := index + 1)
      (y := (splitEntryList index m.values).2) hscale (Nat.le_succ index)
  -- the split of the right piece at index + 1 has the singleton [index, index+1)
  have hsingle : (splitEntryList (index + 1) (splitEntryList index m.values).2).1
      = [⟨index, 1, e.value⟩] ∧
      chainFrom (index + 1) size (splitEntryList (index + 1) (splitEntryList index m.values).2).2 := by
    constructor
    · rw [hrest]
      by_cases hl : index + 1 < e.endIdx
      · have hne : ¬ e.offset = index + 1 := by omega
        have hc : index + 1 > e.offset ∧ index + 1 < e.endIdx := ⟨by omega, hl⟩
        simp only [splitEntryList, if_neg hne, if_pos hc]
        rw [heoff]
        norm_num
      · have hl2 : e.endIdx = index + 1 := by
          unfold RangeMapEntry.endIdx at hl ⊢
          omega
        have hne : ¬ e.offset = index + 1 := by omega
        have hnc : ¬ (index + 1 > e.offset ∧ index + 1 < e.endIdx) := by
          intro hc2
          omega
        simp only [splitEntryList, if_neg hne, if_neg hnc]
        rw [splitEntryList_bdry (by rw [← hl2]; exact hechain)]
        have hlen1 : e.len = 1 := by
          unfold RangeMapEntry.endIdx at hl2
          omega
        cases e
        simp_all
    · have hcc := (chain_splitEntryList hsplit1.2 (Nat.le_succ index)).2
      rw [Nat.min_eq_left hix] at hcc
      exact hcc
  -- expansion of the right-of-right piece
  have htd2 := split_take_drop hsplit1.2 (Nat.le_succ index) hix
  have hsub : index + 1 - index = 1 := by omega
  rw [hsub] at htd2
  -- assemble
  have hout : (reportRange m index true st).values
      = scaleEntries (1 + st) (splitEntryList index m.values).1
          ++ [⟨index, 1, e.value * (1 + st)⟩]
          ++ (splitEntryList (index + 1) (splitEntryList index m.values).2).2 := by
    show (let p1 := splitEntryList index m.values
          let l1 := scaleEntries (1 + st) p1.1
          let p2 := splitEntryList (index + 1) (l1 ++ p1.2)
          (⟨mulLastEntry (1 + st) p2.1 ++ p2.2⟩ : RangeMap ℚ)).values = _
    simp only [happ, hsingle.1]
    rw [mulLastEntry_append_singleton]
  constructor
  · rw [hout]
    refine chain_append_of (m := index + 1) (chain_append_of (m := index) hscale ?_) hsingle.2
    exact ⟨rfl, Nat.one_pos, rfl⟩
  · rw [hout]
    rw [expandList_append, expandList_append]
    rw [expand_scaleEntries, htd1.1]
    have hV : expandList (splitEntryList index m.values).2 = (expandList m.values).drop index :=
      htd1.2
    have hdropexp : expandList (splitEntryList index m.values).2
        = List.replicate e.len e.value ++ expandList rest := by
      rw [hrest]; rfl
    have hlenV : (expandList m.values).length = size := by
      have := length_expandList h
      omega
    have htake1 : ((expandList m.values).drop index).take 1 = [e.value] := by
      rw [← hV, hdropexp]
      cases hee : e.len with
      | zero => omega
      | succ k => simp [List.replicate_succ]
    have htake : (expandList m.values).take (index + 1)
        = (expandList m.values).take index ++ [e.value] := by
      rw [List.take_add, htake1]
    have hdrop : expandList (splitEntryList (index + 1) (splitEntryList index m.values).2).2
        = (expandList m.values).drop (index + 1) := by
      rw [htd2.2, hV, List.drop_drop]
    rw [htake, hdrop]
    simp [expandList, RangeMapEntry.expandE, List.map_append]

/-- Expansion behaviour of the tails branch of `report_range`: the individual
weights at indices `index+1 ..` are multiplied by `1 + stiffness`. -/
theorem reportRange_tails_spec {size index : ℕ} {m : RangeMap ℚ} (st : ℚ)
    (h : chainFrom 0 size m.values) (hix : index + 1 ≤ size) :
    chainFrom 0 size (reportRange m index false st).values ∧
      expandList (reportRange m index false st).values
        = (expandList m.values).take (index + 1)
            ++ ((expandList m.values).drop (index + 1)).map (· * (1 + st)) := by
  have hidx : index < size := hix
  have hsplit1 := chain_splitEntryList h (Nat.zero_le index)
  rw [Nat.min_eq_left (Nat.le_of_lt hidx)] at hsplit1
  have hglue : chainFrom 0 size
      ((splitEntryList index m.values).1 ++ (splitEntryList index m.values).2) :=
    chain_append_of hsplit1.1 hsplit1.2
  have hcontent := expand_splitEntryList index m.values
  have hsplit2 := chain_splitEntryList hglue (Nat.zero_le (index + 1))
  rw [Nat.min_eq_left hix] at hsplit2
  have htd2 := split_take_drop hglue (Nat.zero_le (index + 1)) hix
  rw [Nat.sub_zero] at htd2
  have hV2 : expandList ((splitEntryList index m.values).1 ++ (splitEntryList index m.values).2)
      = expandList m.values := by
    rw [expandList_append]; exact hcontent
  have hout : (reportRange m index false st).values
      = (splitEntryList (index + 1)
            ((splitEntryList index m.values).1 ++ (splitEntryList index m.values).2)).1
          ++ scaleEntries (1 + st)
            (splitEntryList (index + 1)
              ((splitEntryList index m.values).1 ++ (splitEntryList index m.values).2)).2 := rfl
  constructor
  · rw [hout]
    exact chain_append_of hsplit2.1 (chain_scaleEntries _ hsplit2.2)
  · rw [hout, expandList_append, expand_scaleEntries, htd2.1, htd2.2, hV2]

/-- Combined expansion spec of `report_range`. -/
theorem reportRange_spec {size index : ℕ} {m : RangeMap ℚ} (heads : Bool) (st : ℚ)
    (h : chainFrom 0 size m.values) (hix : index + 1 ≤ size) :
    chainFrom 0 size (reportRange m index heads st).values ∧
      expandList (reportRange m index heads st).values
        = if heads then
            ((expandList m.values).take (index + 1)).map (· * (1 + st))
              ++ (expandList m.values).drop (index + 1)
          else
            (expandList m.values).take (index + 1)
              ++ ((expandList m.values).drop (index + 1)).map (· * (1 + st)) := by
  cases heads with
  | true => simpa using reportRange_heads_spec st h hix
  | false => simpa using reportRange_tails_spec st h hix

/-! ### Per-index weights -/

/-- The per-index weight of atomic index `j` (value of the entry containing
`j`), read off the expanded vector. -/
def weightAt (m : RangeMap ℚ) (j : ℕ) : ℚ := (expandList m.values).getD j 0

theorem getD_heads_form (V W : List ℚ) (c : ℚ) (i j : ℕ) (hW : W = V.drop (i + 1))
    (hi : i + 1 ≤ V.length) (hj : j < V.length) :
    (((V.take (i + 1)).map (· * c)) ++ W).getD j 0
      = (if j ≤ i then V.getD j 0 * c else V.getD j 0) := by
  subst hW
  have hlen : ((V.take (i + 1)).map (· * c)).length = i + 1 := by
    simp
    omega
  by_cases hji : j ≤ i
  · rw [if_pos hji]
    rw [List.getD_eq_getElem?_getD, List.getElem?_append, if_pos (by omega)]
    rw [List.getElem?_map, List.getElem?_take, if_pos (by omega)]
    rw [List.getElem?_eq_getElem hj]
    simp [List.getD_eq_getElem?_getD, List.getElem?_eq_getElem hj]
  · rw [if_neg hji]
    rw [List.getD_eq_getElem?_getD, List.getElem?_append, if_neg (by omega)]
    rw [hlen, List.getElem?_drop]
    have : i + 1 + (j - (i + 1)) = j := by omega
    rw [this, List.getD_eq_getElem?_getD]

theorem getD_tails_form (V W : List ℚ) (c : ℚ) (i j : ℕ) (hW : W = V.take (i + 1))
    (hi : i + 1 ≤ V.length) (hj : j < V.length) :
    (W ++ ((V.drop (i + 1)).map (· * c))).getD j 0
      = (if j ≤ i then V.getD j 0 else V.getD j 0 * c) := by
  subst hW
  have hlen : (V.take (i + 1)).length = i + 1 := by
    simp
    omega
  by_cases hji : j ≤ i
  · rw [if_pos hji]
    rw [List.getD_eq_getElem?_getD, List.getElem?_append, if_pos (by omega)]
    rw [List.getElem?_take, if_pos (by omega), List.getD_eq_getElem?_getD]
  · rw [if_neg hji]
    rw [List.getD_eq_getElem?_getD, List.getElem?_append, if_neg (by omega)]
    rw [hlen, List.getElem?_map, List.getElem?_drop]
    have : i + 1 + (j - (i + 1)) = j := by omega
    rw [this, List.getElem?_eq_getElem hj]
    simp [List.getD_eq_getElem?_getD, List.getElem?_eq_getElem hj]

theorem getD_map_div (L : List ℚ) (c : ℚ) (j : ℕ) (hj : j < L.length) :
    (L.map (· / c)).getD j 0 = L.getD j 0 / c := by
  rw [List.getD_eq_getElem?_getD, List.getElem?_map, List.getElem?_eq_getElem hj]
  simp [List.getD_eq_getElem?_getD, List.getElem?_eq_getElem hj]

/-- C1: `report_with_stiffness(i, heads, s)` multiplies the per-index weight
of exactly the indices `0..=i` by `1 + s` when `heads`, respectively
`i+1..=N` when not `heads` (first conjunct), then divides every entry's value
by the total mass `Σ entry.value * entry.len` (second conjunct), leaving the
relative weights within each of the two halves unchanged (third conjunct).
Domain size is `N + 1` where `N = s.len`. -/
theorem C1_report_with_stiffness_update (s : Searcher)
    (hwf : s.weights.WF (s.len + 1)) (i : ℕ) (hi : i < s.len) (heads : Bool) (st : ℚ) :
    (∀ j, j ≤ s.len →
      weightAt (reportRange s.weights i heads st) j
        = weightAt s.weights j *
            (if (heads = true ∧ j ≤ i) ∨ (heads = false ∧ i < j) then 1 + st else 1)) ∧
    (∀ j, j ≤ s.len →
      weightAt (s.reportWithStiffness i heads st).weights j
        = weightAt (reportRange s.weights i heads st) j
            / massList (reportRange s.weights i heads st).values) ∧
    (∀ j k, j ≤ s.len → k ≤ s.len →
      ((j ≤ i ∧ k ≤ i) ∨ (i < j ∧ i < k)) →
      weightAt (s.reportWithStiffness i heads st).weights j * weightAt s.weights k
        = weightAt (s.reportWithStiffness i heads st).weights k * weightAt s.weights j) := by
  have hix : i + 1 ≤ s.len + 1 := by omega
  have hmid := reportRange_spec heads st hwf hix
  have hlenV : (expandList s.weights.values).length = s.len + 1 := by
    have := length_expandList hwf
    omega
  have hpart1 : ∀ j, j ≤ s.len →
      weightAt (reportRange s.weights i heads st) j
        = weightAt s.weights j *
            (if (heads = true ∧ j ≤ i) ∨ (heads = false ∧ i < j) then 1 + st else 1) := by
    intro j hj
    have hjlt : j < (expandList s.weights.values).length := by omega
    unfold weightAt
    cases heads with
    | false =>
        rw [(reportRange_tails_spec st hwf hix).2]
        rw [getD_tails_form _ _ _ i j rfl (by omega) hjlt]
        by_cases hji : j ≤ i
        · rw [if_pos hji, if_neg ?_]
          · ring
          · rintro (⟨hcon, -⟩ | ⟨-, hcon⟩)
            · exact Bool.noConfusion hcon
            · omega
        · rw [if_neg hji, if_pos (Or.inr ⟨rfl, by omega⟩)]
    | true =>
        rw [(reportRange_heads_spec st hwf hix).2]
        rw [getD_heads_form _ _ _ i j rfl (by omega) hjlt]
        by_cases hji : j ≤ i
        · rw [if_pos hji, if_pos (Or.inl ⟨rfl, hji⟩)]
        · rw [if_neg hji, if_neg ?_]
          · ring
          · rintro (⟨-, hcon⟩ | ⟨hcon, -⟩)
            · exact hji hcon
            · exact Bool.noConfusion hcon
  have hlenMid : (expandList (reportRange s.weights i heads st).values).length = s.len + 1 := by
    have := length_expandList hmid.1
    omega
  have hpart2 : ∀ j, j ≤ s.len →
      weightAt (s.reportWithStiffness i heads st).weights j
        = weightAt (reportRange s.weights i heads st) j
            / massList (reportRange s.weights i heads st).values := by
    intro j hj
    unfold weightAt Searcher.reportWithStiffness
    simp only
    rw [expand_normalizeEntries]
    exact getD_map_div _ _ j (by omega)
  refine ⟨hpart1, hpart2, ?_⟩
  intro j k hj hk hsame
  rw [hpart2 j hj, hpart2 k hk, hpart1 j hj, hpart1 k hk]
  have hfac : (if (heads = true ∧ j ≤ i) ∨ (heads = false ∧ i < j) then 1 + st else 1)
      = (if (heads = true ∧ k ≤ i) ∨ (heads = false ∧ i < k) then 1 + st else 1) := by
    rcases hsame with ⟨hji, hki⟩ | ⟨hji, hki⟩
    · cases heads with
      | false =>
          rw [if_neg ?_, if_neg ?_]
          · rintro (⟨hc, -⟩ | ⟨-, hc⟩)
            · exact Bool.noConfusion hc
            · omega
          · rintro (⟨hc, -⟩ | ⟨-, hc⟩)
            · exact Bool.noConfusion hc
            · omega
      | true =>
          rw [if_pos (Or.inl ⟨rfl, hji⟩), if_pos (Or.inl ⟨rfl, hki⟩)]
    · cases heads with
      | false =>
          rw [if_pos (Or.inr ⟨rfl, hji⟩), if_pos (Or.inr ⟨rfl, hki⟩)]
      | true =>
          rw [if_neg ?_, if_neg ?_]
          · rintro (⟨-, hc⟩ | ⟨hc, -⟩)
            · omega
            · exact Bool.noConfusion hc
          · rintro (⟨-, hc⟩ | ⟨hc, -⟩)
            · omega
            · exact Bool.noConfusion hc
  rw [hfac]
  ring

/-- Witness for C1 at a concrete input. -/
theorem C1_report_with_stiffness_update_witness :
    (Searcher.new 1).weights.WF ((Searcher.new 1).len + 1) ∧ 0 < (Searcher.new 1).len ∧
      ((∀ j, j ≤ (Searcher.new 1).len →
        weightAt (reportRange (Searcher.new 1).weights 0 true 1) j
          = weightAt (Searcher.new 1).weights j *
              (if (true = true ∧ j ≤ 0) ∨ (true = false ∧ 0 < j) then 1 + 1 else 1)) ∧
      (∀ j, j ≤ (Searcher.new 1).len →
        weightAt ((Searcher.new 1).reportWithStiffness 0 true 1).weights j
          = weightAt (reportRange (Searcher.new 1).weights 0 true 1) j
              / massList (reportRange (Searcher.new 1).weights 0 true 1).values) ∧
      (∀ j k, j ≤ (Searcher.new 1).len → k ≤ (Searcher.new 1).len →
        ((j ≤ 0 ∧ k ≤ 0) ∨ (0 < j ∧ 0 < k)) →
        weightAt ((Searcher.new 1).reportWithStiffness 0 true 1).weights j *
            weightAt (Searcher.new 1).weights k
          = weightAt ((Searcher.new 1).reportWithStiffness 0 true 1).weights k *
              weightAt (Searcher.new 1).weights j)) :=
  ⟨by decide, by decide,
    C1_report_with_stiffness_update (Searcher.new 1) (by decide) 0 (by decide) true 1⟩

/-! ### RangeMap invariants (claim C9) -/

/-- Sum of entry lengths. -/
def lenSum {α : Type} : List (RangeMapEntry α) → ℕ
  | [] => 0
  | e :: rest => e.len + lenSum rest

theorem lenSum_of_chain {α : Type} :
    ∀ {off size : ℕ} {l : List (RangeMapEntry α)},
      chainFrom off size l → lenSum l = size - off := by
  intro off size l
  induction l generalizing off with
  | nil =>
      intro h
      have hh : off = size := h
      simp [lenSum, hh]
  | cons e rest ih =>
      intro h
      obtain ⟨h1, h2, h3⟩ := h
      have := chainFrom_off_le h3
      simp [lenSum, ih h3]
      omega

/-- `index` is already a boundary of the map: some entry starts at `index`. -/
def RangeMap.isBoundary {α : Type} (m : RangeMap α) (index : ℕ) : Prop :=
  ∃ e ∈ m.values, e.offset = index

instance {α : Type} (m : RangeMap α) (index : ℕ) : Decidable (m.isBoundary index) := by
  unfold RangeMap.isBoundary
  infer_instance

/-- Every entry of a chained list lies inside `[off, size)`. -/
theorem chain_mem_bounds {α : Type} :
    ∀ {off size : ℕ} {l : List (RangeMapEntry α)},
      chainFrom off size l → ∀ f ∈ l, off ≤ f.offset ∧ f.endIdx ≤ size := by
  intro off size l
  induction l generalizing off with
  | nil => intro _ f hf; cases hf
  | cons e rest ih =>
      intro h f hf
      obtain ⟨h1, h2, h3⟩ := h
      rcases List.mem_cons.mp hf with hf | hf
      · subst hf
        have := chainFrom_off_le h3
        refine ⟨Nat.le_of_eq h1.symm, ?_⟩
        unfold RangeMapEntry.endIdx
        omega
      · have := ih h3 f hf
        exact ⟨by omega, this.2⟩

/-- When `index` is `off`, `size`, or an existing boundary, `split` leaves the
entry list untouched. -/
theorem splitEntryList_noop {α : Type} :
    ∀ {off size index : ℕ} {l : List (RangeMapEntry α)},
      chainFrom off size l →
      (index = off ∨ index = size ∨ ∃ e ∈ l, e.offset = index) →
      (splitEntryList index l).1 ++ (splitEntryList index l).2 = l := by
  intro off size index l
  induction l generalizing off with
  | nil => intro _ _; rfl
  | cons e rest ih =>
      intro h hcase
      obtain ⟨h1, h2, h3⟩ := h
      by_cases hc1 : e.offset = index
      · simp [splitEntryList, hc1]
      · have hnc : ¬ (index > e.offset ∧ index < e.endIdx) := by
          rcases hcase with hh | hh | ⟨f, hf, hfo⟩
          · omega
          · have := chainFrom_off_le h3
            unfold RangeMapEntry.endIdx
            omega
          · rcases List.mem_cons.mp hf with hf | hf
            · exact absurd (hf ▸ hfo) hc1
            · have hoff := (chain_mem_bounds h3 f hf).1
              unfold RangeMapEntry.endIdx
              omega
        have hcase2 : index = off + e.len ∨ index = size ∨ ∃ f ∈ rest, f.offset = index := by
          rcases hcase with hh | hh | ⟨f, hf, hfo⟩
          · omega
          · exact Or.inr (Or.inl hh)
          · rcases List.mem_cons.mp hf with hf | hf
            · exact absurd (hf ▸ hfo) hc1
            · exact Or.inr (Or.inr ⟨f, hf, hfo⟩)
        simp only [splitEntryList, if_neg hc1, if_neg hnc]
        simp only [List.cons_append, ih h3 hcase2]

/-- When `index` lies strictly inside an entry (and is not a boundary),
`split` divides exactly that entry into two entries with the same value and
lengths `index - offset` and `old_end - index`. -/
theorem splitEntryList_insert {α : Type} :
    ∀ {off size index : ℕ} {l : List (RangeMapEntry α)},
      chainFrom off size l → off < index → index < size →
      ¬(∃ e ∈ l, e.offset = index) →
      ∃ pre e suf, l = pre ++ e :: suf ∧ e.offset < index ∧ index < e.endIdx ∧
        (splitEntryList index l).1 ++ (splitEntryList index l).2
          = pre ++ (⟨e.offset, index - e.offset, e.value⟩ : RangeMapEntry α)
              :: (⟨index, e.endIdx - index, e.value⟩ : RangeMapEntry α) :: suf := by
  intro off size index l
  induction l generalizing off with
  | nil =>
      intro h hlt hsize _
      have hh : off = size := h
      omega
  | cons e rest ih =>
      intro h hlt hsize hnb
      obtain ⟨h1, h2, h3⟩ := h
      have hc1 : ¬ e.offset = index := fun hc => hnb ⟨e, List.mem_cons_self e rest, hc⟩
      by_cases hin : index < e.endIdx
      · have hcond : index > e.offset ∧ index < e.endIdx := ⟨by omega, hin⟩
        refine ⟨[], e, rest, by simp, by omega, hin, ?_⟩
        simp only [splitEntryList, if_neg hc1, if_pos hcond]
        simp
      · have hnext : e.endIdx < index ∨ e.endIdx = index := by omega
        have hstrict : e.endIdx < index := by
          rcases hnext with hh | hh
          · exact hh
          · exfalso
            cases rest with
            | nil =>
                have : e.endIdx = size := by
                  have hz : (off + e.len) = size := h3
                  unfold RangeMapEntry.endIdx
                  omega
                omega
            | cons f rest2 =>
                obtain ⟨hf1, -, -⟩ := h3
                refine hnb ⟨f, List.mem_cons_of_mem _ (List.mem_cons_self f rest2), ?_⟩
                rw [hf1]
                unfold RangeMapEntry.endIdx at hh
                omega
        have hcond : ¬ (index > e.offset ∧ index < e.endIdx) := by
          intro hc
          omega
        have hnb2 : ¬(∃ f ∈ rest, f.offset = index) := by
          rintro ⟨f, hf, hfo⟩
          exact hnb ⟨f, List.mem_cons_of_mem _ hf, hfo⟩
        have hoff2 : off + e.len < index := by
          unfold RangeMapEntry.endIdx at hstrict
          omega
        obtain ⟨pre, g, suf, hsplit, hg1, hg2, hg3⟩ := ih h3 hoff2 hsize hnb2
        refine ⟨e :: pre, g, suf, by simp [hsplit], hg1, hg2, ?_⟩
        simp only [splitEntryList, if_neg hc1, if_neg hcond]
        simp only [List.cons_append, List.append_eq]
        rw [hg3]

/-- `range_for_index` finds the unique covering entry for any in-range
index. -/
theorem find_covering_entry {α : Type} :
    ∀ {off size j : ℕ} {l : List (RangeMapEntry α)},
      chainFrom off size l → off ≤ j → j < size →
      ∃ e, l.find? (fun w => decide (w.offset ≤ j) && decide (j < w.endIdx)) = some e ∧
        e.offset ≤ j ∧ j < e.endIdx := by
  intro off size j l
  induction l generalizing off with
  | nil =>
      intro h hle hlt
      have hh : off = size := h
      omega
  | cons e rest ih =>
      intro h hle hlt
      obtain ⟨h1, h2, h3⟩ := h
      by_cases hin : j < e.endIdx
      · refine ⟨e, ?_, by omega, hin⟩
        rw [List.find?_cons_of_pos]
        simp [hin]
        omega
      · have hrec := ih h3 (by unfold RangeMapEntry.endIdx at hin; omega) hlt
        obtain ⟨f, hf1, hf2, hf3⟩ := hrec
        refine ⟨f, ?_, hf2, hf3⟩
        rw [List.find?_cons_of_neg]
        · exact hf1
        · simp [hin]

theorem WF_new {α : Type} (size : ℕ) (v : α) (hsize : 0 < size) :
    (RangeMap.new size v).WF size := by
  unfold RangeMap.WF RangeMap.new
  exact ⟨rfl, hsize, Nat.zero_add size⟩

theorem WF_splitMap {α : Type} {m : RangeMap α} {size : ℕ} (hwf : m.WF size) (i : ℕ) :
    (m.splitMap i).WF size := by
  have hc := chain_splitEntryList hwf (Nat.zero_le i)
  exact chain_append_of hc.1 hc.2

/-- The map reached from `new(size, v)` by a sequence of `split` calls. -/
def splitSeq {α : Type} (size : ℕ) (v : α) (ops : List ℕ) : RangeMap α :=
  ops.foldl RangeMap.splitMap (RangeMap.new size v)

theorem WF_splitSeq {α : Type} (size : ℕ) (v : α) (hsize : 0 < size) (ops : List ℕ) :
    (splitSeq size v ops).WF size := by
  unfold splitSeq
  suffices hgen : ∀ (m : RangeMap α), m.WF size → (ops.foldl RangeMap.splitMap m).WF size from
    hgen _ (WF_new size v hsize)
  induction ops with
  | nil => intro m hm; exact hm
  | cons i rest ih =>
      intro m hm
      exact ih _ (WF_splitMap hm i)

/-- C9: starting from `new(size, value)` with `0 < size`, after any sequence
of `split(i)` calls with `i ≤ size`: the structural invariant holds (offsets
chain from `0` with positive lengths and consecutive entries meeting, ending
at `size`), the entry lengths sum to `size`, `range_for_index(j)` returns the
entry with `offset ≤ j < offset + len` for every `j < size`; moreover a
further `split(i)` leaves the entries untouched when `i` is `0`, `size` or an
existing boundary, and otherwise divides the entry containing `i` into two
entries with the same value and lengths `i - offset` and `old_end - i`. -/
theorem C9_range_map_split_invariants {α : Type} (size : ℕ) (v : α) (hsize : 0 < size)
    (ops : List ℕ) (hops : ∀ i ∈ ops, i ≤ size) :
    (splitSeq size v ops).WF size ∧
    lenSum (splitSeq size v ops).values = size ∧
    (∀ j, j < size → ∃ e, (splitSeq size v ops).rangeForIndex? j = some e ∧
      e.offset ≤ j ∧ j < e.offset + e.len) ∧
    (∀ i, i ≤ size →
      (i = 0 ∨ i = size ∨ (splitSeq size v ops).isBoundary i) →
      ((splitSeq size v ops).splitMap i).values = (splitSeq size v ops).values) ∧
    (∀ i, 0 < i → i < size → ¬ (splitSeq size v ops).isBoundary i →
      ∃ pre e suf, (splitSeq size v ops).values = pre ++ e :: suf ∧
        e.offset < i ∧ i < e.offset + e.len ∧
        ((splitSeq size v ops).splitMap i).values
          = pre ++ (⟨e.offset, i - e.offset, e.value⟩ : RangeMapEntry α)
              :: (⟨i, e.offset + e.len - i, e.value⟩ : RangeMapEntry α) :: suf) := by
  have hwf : (splitSeq size v ops).WF size := WF_splitSeq size v hsize ops
  refine ⟨hwf, lenSum_of_chain hwf, ?_, ?_, ?_⟩
  · intro j hj
    obtain ⟨e, he1, he2, he3⟩ := find_covering_entry hwf (Nat.zero_le j) hj
    exact ⟨e, he1, he2, he3⟩
  · intro i hi hcase
    show (splitEntryList i (splitSeq size v ops).values).1
        ++ (splitEntryList i (splitSeq size v ops).values).2 = _
    exact splitEntryList_noop hwf hcase
  · intro i hi0 hisize hnb
    obtain ⟨pre, e, suf, ha, hb, hc, hd⟩ :=
      splitEntryList_insert hwf hi0 hisize (fun hx => hnb hx)
    exact ⟨pre, e, suf, ha, hb, hc, hd⟩

/-- Witness for C9 at a concrete input. -/
theorem C9_range_map_split_invariants_witness :
    (0 < 3 ∧ ∀ i ∈ [1, 1, 2], i ≤ 3) ∧
    ((splitSeq 3 (7 : ℕ) [1, 1, 2]).WF 3 ∧
    lenSum (splitSeq 3 (7 : ℕ) [1, 1, 2]).values = 3 ∧
    (∀ j, j < 3 → ∃ e, (splitSeq 3 (7 : ℕ) [1, 1, 2]).rangeForIndex? j = some e ∧
      e.offset ≤ j ∧ j < e.offset + e.len) ∧
    (∀ i, i ≤ 3 →
      (i = 0 ∨ i = 3 ∨ (splitSeq 3 (7 : ℕ) [1, 1, 2]).isBoundary i) →
      ((splitSeq 3 (7 : ℕ) [1, 1, 2]).splitMap i).values
        = (splitSeq 3 (7 : ℕ) [1, 1, 2]).values) ∧
    (∀ i, 0 < i → i < 3 → ¬ (splitSeq 3 (7 : ℕ) [1, 1, 2]).isBoundary i →
      ∃ pre e suf, (splitSeq 3 (7 : ℕ) [1, 1, 2]).values = pre ++ e :: suf ∧
        e.offset < i ∧ i < e.offset + e.len ∧
        ((splitSeq 3 (7 : ℕ) [1, 1, 2]).splitMap i).values
          = pre ++ (⟨e.offset, i - e.offset, e.value⟩ : RangeMapEntry ℕ)
              :: (⟨i, e.offset + e.len - i, e.value⟩ : RangeMapEntry ℕ) :: suf)) :=
  ⟨⟨by decide, by decide⟩,
    C9_range_map_split_invariants 3 (7 : ℕ) (by decide) [1, 1, 2] (by decide)⟩

/-! ### Panic conditions (claim C10) -/

/-- C10 counterexample: `likelihood` on a `Searcher` of size `N = 1` with
index `1 ≥ N` does NOT panic: it returns the weight `1/2` of the extra domain
slot (the domain has size `N + 1`).  The claim asserts it aborts. -/
theorem C10_likelihood_no_panic_at_N :
    (Searcher.new 1).len ≤ 1 ∧
      (Searcher.new 1).likelihoodChecked 1 = some (1/2 : ℚ) := by
  constructor
  · decide
  · show ((Searcher.new 1).weights.rangeForIndex? 1).map _ = _
    simp [Searcher.new, RangeMap.rangeForIndex?, RangeMap.new, List.find?,
      RangeMapEntry.endIdx]
    norm_num

/-- C10 (amended): `report_with_stiffness` (and hence `report`, which
delegates to it) panics exactly when `index ≥ N`; `likelihood` panics exactly
when `index > N` (its domain has size `N + 1`).  Panics are modelled by
`none`; no recoverable error value exists. -/
theorem C10_panic_conditions (s : Searcher) (hwf : s.weights.WF (s.len + 1))
    (index : ℕ) (heads : Bool) (st : ℚ) :
    (s.reportWithStiffnessChecked index heads st = none ↔ s.len ≤ index) ∧
      (s.likelihoodChecked index = none ↔ s.len + 1 ≤ index) := by
  constructor
  · unfold Searcher.reportWithStiffnessChecked
    split_ifs with h
    · simp
      omega
    · simp
      omega
  · unfold Searcher.likelihoodChecked
    constructor
    · intro hnone
      by_contra hlt
      have hlt2 : index < s.len + 1 := by omega
      obtain ⟨e, he1, -, -⟩ := find_covering_entry hwf (Nat.zero_le index) hlt2
      unfold RangeMap.rangeForIndex? at hnone
      rw [he1] at hnone
      cases hnone
    · intro hge
      have hnone : s.weights.rangeForIndex? index = none := by
        unfold RangeMap.rangeForIndex?
        rw [List.find?_eq_none]
        intro e he
        have := chain_mem_bounds hwf e he
        simp
        intro _
        omega
      rw [hnone]
      rfl

/-- Witness for C10's amended theorem at a concrete input. -/
theorem C10_panic_conditions_witness :
    (Searcher.new 1).weights.WF ((Searcher.new 1).len + 1) ∧
      (((Searcher.new 1).reportWithStiffnessChecked 2 true 1 = none ↔
          (Searcher.new 1).len ≤ 2) ∧
        ((Searcher.new 1).likelihoodChecked 2 = none ↔ (Searcher.new 1).len + 1 ≤ 2)) :=
  ⟨by decide, C10_panic_conditions (Searcher.new 1) (by decide) 2 true 1⟩

/-! ### Mass conservation for the linear Searcher (claim C3, linear half) -/

theorem sum_map_div (l : List ℚ) (c : ℚ) :
    (l.map (fun x => x / c)).sum = l.sum / c := by
  induction l with
  | nil => simp
  | cons x rest ih => simp [ih, add_div]

theorem sum_pos_of_pos {l : List ℚ} (hne : l ≠ []) (hpos : ∀ x ∈ l, 0 < x) :
    0 < l.sum := by
  cases l with
  | nil => exact absurd rfl hne
  | cons x rest =>
      have hx : 0 < x := hpos x (List.mem_cons_self x rest)
      have hrest : 0 ≤ rest.sum :=
        List.sum_nonneg (fun y hy => le_of_lt (hpos y (List.mem_cons_of_mem x hy)))
      simp only [List.sum_cons]
      linarith

/-- Running a sequence of `report_with_stiffness(index, heads, stiffness)`
calls. -/
def runReports (s : Searcher) (ops : List (ℕ × Bool × ℚ)) : Searcher :=
  ops.foldl (fun acc op => acc.reportWithStiffness op.1 op.2.1 op.2.2) s

theorem searcher_step_invariant {s : Searcher}
    (hwf : s.weights.WF (s.len + 1))
    (hpos : ∀ x ∈ expandList s.weights.values, 0 < x)
    {i : ℕ} (hi : i < s.len) (heads : Bool) {st : ℚ} (hst : 0 ≤ st) :
    (s.reportWithStiffness i heads st).len = s.len ∧
      (s.reportWithStiffness i heads st).weights.WF (s.len + 1) ∧
      (∀ x ∈ expandList (s.reportWithStiffness i heads st).weights.values, 0 < x) ∧
      massList (s.reportWithStiffness i heads st).weights.values = 1 := by
  have hix : i + 1 ≤ s.len + 1 := by omega
  have hspec := reportRange_spec heads st hwf hix
  have hc : (0 : ℚ) < 1 + st := by linarith
  -- positivity of the intermediate (pre-normalization) expansion
  have hposMid : ∀ x ∈ expandList (reportRange s.weights i heads st).values, 0 < x := by
    intro x hx
    rw [hspec.2] at hx
    cases heads with
    | true =>
        simp only [if_pos rfl] at hx
        rcases List.mem_append.mp hx with hx | hx
        · obtain ⟨y, hy, hyx⟩ := List.mem_map.mp hx
          have := hpos y (List.take_subset _ _ hy)
          rw [← hyx]
          positivity
        · exact hpos x (List.drop_subset _ _ hx)
    | false =>
        simp only [Bool.false_eq_true, if_neg (by simp : ¬ (false = true))] at hx
        rcases List.mem_append.mp hx with hx | hx
        · exact hpos x (List.take_subset _ _ hx)
        · obtain ⟨y, hy, hyx⟩ := List.mem_map.mp hx
          have := hpos y (List.drop_subset _ _ hy)
          rw [← hyx]
          positivity
  -- the intermediate mass is positive
  have hlenMid : (expandList (reportRange s.weights i heads st).values).length = s.len + 1 := by
    have := length_expandList hspec.1
    omega
  have hMpos : 0 < massList (reportRange s.weights i heads st).values := by
    rw [massList_eq_sum_expand]
    refine sum_pos_of_pos ?_ hposMid
    intro hcon
    rw [hcon] at hlenMid
    simp at hlenMid
  refine ⟨rfl, ?_, ?_, ?_⟩
  · exact chain_normalizeEntries hspec.1
  · intro x hx
    show 0 < x
    have hx2 : x ∈ expandList (normalizeEntries (reportRange s.weights i heads st).values) := hx
    rw [expand_normalizeEntries] at hx2
    obtain ⟨y, hy, hyx⟩ := List.mem_map.mp hx2
    have := hposMid y hy
    rw [← hyx]
    positivity
  · show massList (normalizeEntries (reportRange s.weights i heads st).values) = 1
    rw [massList_eq_sum_expand, expand_normalizeEntries]
    rw [show (fun x => x / massList (reportRange s.weights i heads st).values)
          = (· / massList (reportRange s.weights i heads st).values) from rfl] at *
    rw [sum_map_div, ← massList_eq_sum_expand]
    exact div_self (ne_of_gt hMpos)

theorem searcher_new_invariant (N : ℕ) :
    (Searcher.new N).len = N ∧
      (Searcher.new N).weights.WF (N + 1) ∧
      (∀ x ∈ expandList (Searcher.new N).weights.values, 0 < x) ∧
      massList (Searcher.new N).weights.values = 1 := by
  refine ⟨rfl, WF_new _ _ (by omega), ?_, ?_⟩
  · intro x hx
    show 0 < x
    simp [Searcher.new, RangeMap.new, expandList, RangeMapEntry.expandE] at hx
    rw [hx]
    positivity
  · show massList [⟨0, N + 1, 1 / ((N : ℚ) + 1)⟩] = 1
    simp [massList]
    push_cast
    field_simp

theorem runReports_invariant (N : ℕ) (ops : List (ℕ × Bool × ℚ))
    (hval : ∀ op ∈ ops, op.1 < N ∧ 0 ≤ op.2.2) :
    (runReports (Searcher.new N) ops).len = N ∧
      (runReports (Searcher.new N) ops).weights.WF (N + 1) ∧
      (∀ x ∈ expandList (runReports (Searcher.new N) ops).weights.values, 0 < x) ∧
      massList (runReports (Searcher.new N) ops).weights.values = 1 := by
  unfold runReports
  suffices hgen : ∀ (s : Searcher), s.len = N →
      s.weights.WF (N + 1) →
      (∀ x ∈ expandList s.weights.values, 0 < x) →
      massList s.weights.values = 1 →
      (∀ op ∈ ops, op.1 < N ∧ 0 ≤ op.2.2) →
      ((ops.foldl (fun acc op => acc.reportWithStiffness op.1 op.2.1 op.2.2) s).len = N ∧
        (ops.foldl (fun acc op => acc.reportWithStiffness op.1 op.2.1 op.2.2) s).weights.WF (N + 1) ∧
        (∀ x ∈ expandList
          (ops.foldl (fun acc op => acc.reportWithStiffness op.1 op.2.1 op.2.2) s).weights.values, 0 < x) ∧
        massList (ops.foldl (fun acc op => acc.reportWithStiffness op.1 op.2.1 op.2.2) s).weights.values = 1) by
    obtain ⟨a, b, c, d⟩ := searcher_new_invariant N
    exact hgen _ a b c d hval
  clear hval
  induction ops with
  | nil => intro s h1 h2 h3 h4 _; exact ⟨h1, h2, h3, h4⟩
  | cons op rest ih =>
      intro s h1 h2 h3 h4 hval
      have hop := hval op (List.mem_cons_self op rest)
      have hstep := searcher_step_invariant (by rw [h1]; exact h2) h3
        (by rw [h1]; exact hop.1) op.2.1 hop.2
      rw [h1] at hstep
      exact ih _ hstep.1 (hstep.1 ▸ hstep.2.1) hstep.2.2.1 hstep.2.2.2
        (fun o ho => hval o (List.mem_cons_of_mem op ho))

/-! ## Percentile searches (lib.rs 102–159) -/

/-- One iteration of the `confidence_percentile_nearest` loop body
(lib.rs 107–131): the in-entry candidate position is
`min(len - 1, ((p - sum)/value - 0.5).max(0.0) as usize)` (the `as usize`
cast truncates, i.e. floors the non-negative value); the candidate is kept if
strictly nearer to `p` than the best so far.  `none` models the initial
`best_percentile = NEG_INFINITY`, which every finite candidate beats. -/
def cpnUpdate (p sum : ℚ) (index : ℕ) (w : RangeMapEntry ℚ)
    (best : Option (ℕ × ℚ)) : Option (ℕ × ℚ) :=
  let k := min (w.len - 1) (Int.toNat ⌊max 0 ((p - sum) / w.value - 1/2)⌋)
  let ix := index + k
  let ixp := sum + ((k : ℚ) + 1) * w.value
  match best with
  | none => some (ix, ixp)
  | some (bi, bp) => if |ixp - p| < |bp - p| then some (ix, ixp) else some (bi, bp)

def cpnGo (p : ℚ) : List (RangeMapEntry ℚ) → ℚ → ℕ → Option (ℕ × ℚ) → Option (ℕ × ℚ)
  | [], _, _, best => best
  | w :: rest, sum, index, best =>
    cpnGo p rest (sum + (w.len : ℚ) * w.value) (index + w.len)
      (cpnUpdate p sum index w best)

/-- `confidence_percentile_nearest(range_map, percentile)`; `none` models the
`assert!(best_percentile > NEG_INFINITY)` failure on an empty map. -/
def confidencePercentileNearest (m : RangeMap ℚ) (p : ℚ) : Option (ℕ × ℚ) :=
  cpnGo p m.values 0 0 none

/-- Loop of `confidence_percentile_ceil` (lib.rs 144–159).  The fallback when
no entry reaches the percentile is `(range_map.len() - 1, sum)`. -/
def cpcGo (p : ℚ) (fallbackLen : ℕ) : List (RangeMapEntry ℚ) → ℚ → ℕ → ℕ × ℚ
  | [], sum, _ => (fallbackLen - 1, sum)
  | w :: rest, sum, index =>
    let delta := (w.len : ℚ) * w.value
    if p ≤ sum + delta then
      let k := Int.toNat ⌊(p - sum) / w.value - 1/1000000000⌋
      (index + k, sum + ((k : ℚ) + 1) * w.value)
    else cpcGo p fallbackLen rest (sum + delta) (index + w.len)

/-- `confidence_percentile_ceil(range_map, percentile)`. -/
def RangeMap.cpCeil (m : RangeMap ℚ) (p : ℚ) : ℕ × ℚ :=
  cpcGo p m.size m.values 0 0

/-- `Searcher::next_index`: nearest-to-0.5 index clamped to `len - 1`. -/
def Searcher.nextIndex (s : Searcher) : ℕ :=
  min ((confidencePercentileNearest s.weights (1/2)).getD (0, 0)).1 (s.len - 1)

/-- `Searcher::best_index`: ceil percentile at 0.5. -/
def Searcher.bestIndex (s : Searcher) : ℕ :=
  (s.weights.cpCeil (1/2)).1

/-- Cumulative mass at atomic index `j`: sum of per-index weights `0..=j`. -/
def cumAt (m : RangeMap ℚ) (j : ℕ) : ℚ :=
  ((expandList m.values).take (j + 1)).sum

/-- The within-entry candidate `min(len-1, floor(max 0 (x - 1/2)))` is a
nearest position: `|k* + 1 - x| ≤ |k + 1 - x|` for every in-entry `k`. -/
theorem nearest_k_min (x : ℚ) {len : ℕ} (hlen : 0 < len) {k : ℕ} (hk : k < len) :
    |((min (len - 1) (Int.toNat ⌊max 0 (x - 1/2)⌋) : ℕ) : ℚ) + 1 - x|
      ≤ |(k : ℚ) + 1 - x| := by
  set m0 : ℕ := Int.toNat ⌊max 0 (x - 1/2)⌋ with hm0def
  have hy0 : (0 : ℚ) ≤ max 0 (x - 1/2) := le_max_left 0 _
  have hfl0 : (0 : ℤ) ≤ ⌊max 0 (x - 1/2)⌋ := Int.floor_nonneg.mpr hy0
  have hcast : ((m0 : ℕ) : ℤ) = ⌊max 0 (x - 1/2)⌋ := Int.toNat_of_nonneg hfl0
  have hlb : ((m0 : ℕ) : ℚ) ≤ max 0 (x - 1/2) := by
    have h1 : (((m0 : ℕ) : ℤ) : ℚ) ≤ max 0 (x - 1/2) := by
      rw [hcast]
      exact Int.floor_le _
    exact_mod_cast h1
  have hub : max 0 (x - 1/2) < ((m0 : ℕ) : ℚ) + 1 := by
    have h1 : max 0 (x - 1/2) < (((m0 : ℕ) : ℤ) : ℚ) + 1 := by
      rw [hcast]
      exact Int.lt_floor_add_one _
    exact_mod_cast h1
  by_cases hx : x ≤ 1/2
  · have hymax : max 0 (x - 1/2) = 0 := max_eq_left (by linarith)
    have hm0 : m0 = 0 := by
      rw [hm0def, hymax]
      simp
    rw [hm0]
    simp only [Nat.min_zero, Nat.cast_zero, zero_add]
    rw [abs_of_nonneg (by linarith : (0 : ℚ) ≤ 1 - x),
      abs_of_nonneg (by
        have : (0 : ℚ) ≤ (k : ℚ) := Nat.cast_nonneg k
        linarith : (0 : ℚ) ≤ (k : ℚ) + 1 - x)]
    have : (0 : ℚ) ≤ (k : ℚ) := Nat.cast_nonneg k
    linarith
  · push_neg at hx
    have hymax : max 0 (x - 1/2) = x - 1/2 := max_eq_right (by linarith)
    rw [hymax] at hlb hub
    by_cases hsm : m0 ≤ len - 1
    · have hks : min (len - 1) m0 = m0 := Nat.min_eq_right hsm
      rw [hks]
      have hb : |((m0 : ℕ) : ℚ) + 1 - x| ≤ 1/2 := abs_le.mpr ⟨by linarith, by linarith⟩
      rcases Nat.lt_trichotomy k m0 with hkm | hkm | hkm
      · have hk1 : (k : ℚ) + 1 ≤ (m0 : ℚ) := by exact_mod_cast hkm
        have hBneg : (k : ℚ) + 1 - x ≤ -(1/2) := by linarith
        rw [abs_of_nonpos (by linarith : (k : ℚ) + 1 - x ≤ 0)]
        calc |((m0 : ℕ) : ℚ) + 1 - x| ≤ 1/2 := hb
        _ ≤ -((k : ℚ) + 1 - x) := by linarith
      · subst hkm
        exact le_refl _
      · have hk1 : (m0 : ℚ) + 1 ≤ (k : ℚ) := by exact_mod_cast hkm
        have hBpos : (1 : ℚ)/2 ≤ (k : ℚ) + 1 - x := by linarith
        rw [abs_of_nonneg (by linarith : (0 : ℚ) ≤ (k : ℚ) + 1 - x)]
        calc |((m0 : ℕ) : ℚ) + 1 - x| ≤ 1/2 := hb
        _ ≤ (k : ℚ) + 1 - x := hBpos
    · push_neg at hsm
      have hks : min (len - 1) m0 = len - 1 := Nat.min_eq_left (le_of_lt hsm)
      rw [hks]
      have hlencast : ((len - 1 : ℕ) : ℚ) = (len : ℚ) - 1 := by
        have : (1 : ℕ) ≤ len := hlen
        push_cast [Nat.cast_sub this]
        ring
      have hm0len : (len : ℚ) ≤ (m0 : ℚ) := by
        have : len ≤ m0 := by omega
        exact_mod_cast this
      have hxlarge : (len : ℚ) + 1/2 ≤ x := by linarith
      have hkcast : (k : ℚ) + 1 ≤ (len : ℚ) := by exact_mod_cast hk
      rw [hlencast]
      rw [abs_of_nonpos (by linarith : (len : ℚ) - 1 + 1 - x ≤ 0),
        abs_of_nonpos (by linarith : (k : ℚ) + 1 - x ≤ 0)]
      linarith

/-- Scaled form of `nearest_k_min`: the chosen in-entry candidate percentile
is nearest among all in-entry candidate percentiles. -/
theorem entry_candidate_min {v : ℚ} (hv : 0 < v) {len : ℕ} (hlen : 0 < len)
    (p s0 : ℚ) {k : ℕ} (hk : k < len) :
    |s0 + (((min (len - 1) (Int.toNat ⌊max 0 ((p - s0) / v - 1/2)⌋) : ℕ) : ℚ) + 1) * v - p|
      ≤ |s0 + ((k : ℚ) + 1) * v - p| := by
  have hvne : v ≠ 0 := ne_of_gt hv
  have hrw : ∀ j : ℕ, s0 + ((j : ℚ) + 1) * v - p = ((j : ℚ) + 1 - (p - s0) / v) * v := by
    intro j
    field_simp
    ring
  rw [hrw _, hrw k, abs_mul, abs_mul, abs_of_pos hv]
  exact mul_le_mul_of_nonneg_right (nearest_k_min ((p - s0) / v) hlen hk) (le_of_lt hv)

/-- `c` is one of the candidates `(n0 + k, s0 + cum(k))` scanned by the
percentile loops over the expanded vector `E`. -/
def IsCand (E : List ℚ) (s0 : ℚ) (n0 : ℕ) (c : ℕ × ℚ) : Prop :=
  ∃ k, k < E.length ∧ c.1 = n0 + k ∧ c.2 = s0 + (E.take (k + 1)).sum

theorem take_replicate_append {v : ℚ} {len : ℕ} (E2 : List ℚ) {j : ℕ} (hj : j ≤ len) :
    ((List.replicate len v ++ E2).take j).sum = (j : ℚ) * v := by
  rw [List.take_append_of_le_length (by simpa using hj), List.take_replicate,
    Nat.min_eq_left hj, List.sum_replicate, nsmul_eq_mul]

theorem take_append_beyond {v : ℚ} {len : ℕ} (E2 : List ℚ) (j : ℕ) :
    ((List.replicate len v ++ E2).take (len + j)).sum = (len : ℚ) * v + (E2.take j).sum := by
  rw [show len + j = (List.replicate len v).length + j by simp, List.take_append,
    List.sum_append, List.sum_replicate, nsmul_eq_mul]

theorem IsCand_cons {v : ℚ} {len : ℕ} (E2 : List ℚ) (s0 : ℚ) (n0 : ℕ) (c : ℕ × ℚ)
    (hlen : 0 < len) :
    IsCand (List.replicate len v ++ E2) s0 n0 c ↔
      (∃ k, k < len ∧ c.1 = n0 + k ∧ c.2 = s0 + ((k : ℚ) + 1) * v) ∨
        IsCand E2 (s0 + (len : ℚ) * v) (n0 + len) c := by
  constructor
  · rintro ⟨k, hk, h1, h2⟩
    rw [List.length_append, List.length_replicate] at hk
    by_cases hkl : k < len
    · left
      refine ⟨k, hkl, h1, ?_⟩
      rw [h2, take_replicate_append E2 (by omega)]
      push_cast
      ring
    · right
      refine ⟨k - len, by omega, by omega, ?_⟩
      rw [h2, show k + 1 = len + (k - len + 1) by omega, take_append_beyond]
      ring
  · rintro (⟨k, hk, h1, h2⟩ | ⟨k, hk, h1, h2⟩)
    · refine ⟨k, by simp; omega, h1, ?_⟩
      rw [h2, take_replicate_append E2 (by omega)]
      push_cast
      ring
    · refine ⟨len + k, by simp; omega, by omega, ?_⟩
      rw [h2, show len + k + 1 = len + (k + 1) by omega, take_append_beyond]
      ring

theorem cpnUpdate_spec (p sum : ℚ) (index : ℕ) {w : RangeMapEntry ℚ}
    (hv : 0 < w.value) (hl : 0 < w.len) (best : Option (ℕ × ℚ)) :
    ∃ ci cp, cpnUpdate p sum index w best = some (ci, cp) ∧
      (best = some (ci, cp) ∨
        (∃ k, k < w.len ∧ ci = index + k ∧ cp = sum + ((k : ℚ) + 1) * w.value)) ∧
      (∀ q : ℕ × ℚ, best = some q → |cp - p| ≤ |q.2 - p|) ∧
      (∀ k, k < w.len → |cp - p| ≤ |sum + ((k : ℚ) + 1) * w.value - p|) := by
  have hkbound : min (w.len - 1) (Int.toNat ⌊max 0 ((p - sum) / w.value - 1/2)⌋) < w.len := by
    have : min (w.len - 1) (Int.toNat ⌊max 0 ((p - sum) / w.value - 1/2)⌋) ≤ w.len - 1 :=
      Nat.min_le_left _ _
    omega
  cases best with
  | none =>
      refine ⟨_, _, rfl, Or.inr ⟨_, hkbound, rfl, rfl⟩, ?_, ?_⟩
      · intro q hq
        cases hq
      · intro k hk
        exact entry_candidate_min hv hl p sum hk
  | some b =>
      obtain ⟨bi, bp⟩ := b
      simp only [cpnUpdate]
      split_ifs with hcmp
      · refine ⟨_, _, rfl, Or.inr ⟨_, hkbound, rfl, rfl⟩, ?_, ?_⟩
        · intro q hq
          cases hq
          exact le_of_lt hcmp
        · intro k hk
          exact entry_candidate_min hv hl p sum hk
      · push_neg at hcmp
        refine ⟨bi, bp, rfl, Or.inl rfl, ?_, ?_⟩
        · intro q hq
          cases hq
          exact le_refl _
        · intro k hk
          exact le_trans hcmp (entry_candidate_min hv hl p sum hk)

theorem cpnGo_cons (p : ℚ) (w : RangeMapEntry ℚ) (rest : List (RangeMapEntry ℚ))
    (sum : ℚ) (index : ℕ) (best : Option (ℕ × ℚ)) :
    cpnGo p (w :: rest) sum index best
      = cpnGo p rest (sum + (w.len : ℚ) * w.value) (index + w.len)
          (cpnUpdate p sum index w best) := rfl

set_option maxHeartbeats 1000000 in
theorem cpnGo_spec (p : ℚ) :
    ∀ (l : List (RangeMapEntry ℚ)) (s0 : ℚ) (n0 : ℕ) (best : Option (ℕ × ℚ))
      (bi : ℕ) (bp : ℚ),
      (∀ e ∈ l, 0 < e.value ∧ 0 < e.len) →
      cpnGo p l s0 n0 best = some (bi, bp) →
      (best = some (bi, bp) ∨ IsCand (expandList l) s0 n0 (bi, bp)) ∧
        (∀ q : ℕ × ℚ, best = some q → |bp - p| ≤ |q.2 - p|) ∧
        (∀ c : ℕ × ℚ, IsCand (expandList l) s0 n0 c → |bp - p| ≤ |c.2 - p|) := by
  intro l
  induction l with
  | nil =>
      intro s0 n0 best bi bp _ hres
      have hres2 : best = some (bi, bp) := hres
      refine ⟨Or.inl hres2, ?_, ?_⟩
      · intro q hq
        rw [hq] at hres2
        cases hres2
        exact le_refl _
      · rintro c ⟨k, hk, -, -⟩
        simp [expandList] at hk
  | cons w rest ih =>
      intro s0 n0 best bi bp hpos hres
      have hw := hpos w (List.mem_cons_self w rest)
      have hposr : ∀ e ∈ rest, 0 < e.value ∧ 0 < e.len :=
        fun e he => hpos e (List.mem_cons_of_mem w he)
      obtain ⟨ci, cp, hup, hupcases, hupold, hupentry⟩ :=
        cpnUpdate_spec p s0 n0 (w := w) hw.1 hw.2 best
      rw [cpnGo_cons] at hres
      obtain ⟨hA, hB, hC⟩ := ih (s0 + (w.len : ℚ) * w.value) (n0 + w.len)
        (cpnUpdate p s0 n0 w best) bi bp hposr hres
      have hexp : expandList (w :: rest)
          = List.replicate w.len w.value ++ expandList rest := rfl
      -- distance from the result to the previous best and to all head candidates
      have hbest2 : |bp - p| ≤ |cp - p| := by
        rcases hA with hA | hA
        · rw [hup] at hA
          cases hA
          exact le_refl _
        · exact hB (ci, cp) hup
      refine ⟨?_, ?_, ?_⟩
      · rcases hA with hA | hA
        · rw [hup] at hA
          cases hA
          rcases hupcases with hh | ⟨k, hk, hk1, hk2⟩
          · exact Or.inl hh
          · right
            rw [hexp, IsCand_cons _ _ _ _ hw.2]
            exact Or.inl ⟨k, hk, hk1, hk2⟩
        · right
          rw [hexp, IsCand_cons _ _ _ _ hw.2]
          exact Or.inr hA
      · intro q hq
        exact le_trans hbest2 (hupold q hq)
      · intro c hc
        rw [hexp, IsCand_cons _ _ _ _ hw.2] at hc
        rcases hc with ⟨k, hk, -, hc2⟩ | hc
        · rw [hc2]
          exact le_trans hbest2 (hupentry k hk)
        · exact hC c hc

theorem cpnGo_ne_none (p : ℚ) :
    ∀ (l : List (RangeMapEntry ℚ)) (s0 : ℚ) (n0 : ℕ) (best : Option (ℕ × ℚ)),
      (l ≠ [] ∨ best ≠ none) → cpnGo p l s0 n0 best ≠ none := by
  intro l
  induction l with
  | nil =>
      intro s0 n0 best hc
      rcases hc with hc | hc
      · exact absurd rfl hc
      · exact hc
  | cons w rest ih =>
      intro s0 n0 best _
      refine ih _ _ _ (Or.inr ?_)
      cases best with
      | none => simp [cpnUpdate]
      | some b =>
          obtain ⟨bi, bp⟩ := b
          simp only [cpnUpdate]
          split_ifs <;> simp

theorem getD_replicate_append {v : ℚ} {len : ℕ} (E2 : List ℚ) {k : ℕ} (hk : k < len) :
    (List.replicate len v ++ E2).getD k 0 = v := by
  rw [List.getD_eq_getElem?_getD, List.getElem?_append, if_pos (by simpa using hk)]
  simp [List.getElem?_replicate, hk]

theorem getD_replicate_append_right {v : ℚ} {len : ℕ} (E2 : List ℚ) (k : ℕ) :
    (List.replicate len v ++ E2).getD (len + k) 0 = E2.getD k 0 := by
  rw [List.getD_eq_getElem?_getD, List.getElem?_append, if_neg (by simp)]
  simp [List.getD_eq_getElem?_getD]

theorem cpcGo_cons (p : ℚ) (tl : ℕ) (w : RangeMapEntry ℚ) (rest : List (RangeMapEntry ℚ))
    (sum : ℚ) (index : ℕ) (hno : ¬ p ≤ sum + (w.len : ℚ) * w.value) :
    cpcGo p tl (w :: rest) sum index
      = cpcGo p tl rest (sum + (w.len : ℚ) * w.value) (index + w.len) := by
  rw [show cpcGo p tl (w :: rest) sum index
      = if p ≤ sum + (w.len : ℚ) * w.value then
          (index + Int.toNat ⌊(p - sum) / w.value - 1/1000000000⌋,
            sum + ((Int.toNat ⌊(p - sum) / w.value - 1/1000000000⌋ : ℚ) + 1) * w.value)
        else cpcGo p tl rest (sum + (w.len : ℚ) * w.value) (index + w.len) from rfl]
  rw [if_neg hno]

theorem cpcGo_cons_hit (p : ℚ) (tl : ℕ) (w : RangeMapEntry ℚ) (rest : List (RangeMapEntry ℚ))
    (sum : ℚ) (index : ℕ) (hyes : p ≤ sum + (w.len : ℚ) * w.value) :
    cpcGo p tl (w :: rest) sum index
      = (index + Int.toNat ⌊(p - sum) / w.value - 1/1000000000⌋,
          sum + ((Int.toNat ⌊(p - sum) / w.value - 1/1000000000⌋ : ℚ) + 1) * w.value) := by
  rw [show cpcGo p tl (w :: rest) sum index
      = if p ≤ sum + (w.len : ℚ) * w.value then
          (index + Int.toNat ⌊(p - sum) / w.value - 1/1000000000⌋,
            sum + ((Int.toNat ⌊(p - sum) / w.value - 1/1000000000⌋ : ℚ) + 1) * w.value)
        else cpcGo p tl rest (sum + (w.len : ℚ) * w.value) (index + w.len) from rfl]
  rw [if_pos hyes]

/-- Correctness of the `confidence_percentile_ceil` loop: the returned
position `n0 + k` has all earlier cumulatives strictly below `p`, and its own
cumulative exceeds `p - 1e-9 * (weight at the position)` (the `- 1e-9` in the
truncating cast can undershoot the true ceiling by one step, by at most
`1e-9` of the local entry weight). -/
theorem cpcGo_spec (p : ℚ) (tl : ℕ) :
    ∀ (l : List (RangeMapEntry ℚ)) (s0 : ℚ) (n0 : ℕ),
      (∀ e ∈ l, 0 < e.value ∧ 0 < e.len) →
      s0 < p → p ≤ s0 + (expandList l).sum →
      ∃ k, k < (expandList l).length ∧
        cpcGo p tl l s0 n0 = (n0 + k, s0 + ((expandList l).take (k + 1)).sum) ∧
        (∀ j, j < k → s0 + ((expandList l).take (j + 1)).sum < p) ∧
        p - (1/1000000000) * (expandList l).getD k 0
          < s0 + ((expandList l).take (k + 1)).sum := by
  intro l
  induction l with
  | nil =>
      intro s0 n0 _ hlt hle
      simp [expandList] at hle
      linarith
  | cons w rest ih =>
      intro s0 n0 hpos hlt hle
      have hw := hpos w (List.mem_cons_self w rest)
      obtain ⟨hv, hl⟩ := hw
      have hexp : expandList (w :: rest)
          = List.replicate w.len w.value ++ expandList rest := rfl
      have hsumhead : (List.replicate w.len w.value).sum = (w.len : ℚ) * w.value := by
        rw [List.sum_replicate, nsmul_eq_mul]
      by_cases htr : p ≤ s0 + (w.len : ℚ) * w.value
      · -- this entry reaches the percentile
        set x : ℚ := (p - s0) / w.value with hxdef
        have hx0 : 0 < x := div_pos (by linarith) hv
        have hxle : x ≤ (w.len : ℚ) := by
          rw [hxdef, div_le_iff hv]
          linarith
        set k : ℕ := Int.toNat ⌊x - 1/1000000000⌋ with hkdef
        have hfltlt : ⌊x - 1/1000000000⌋ < (w.len : ℤ) := by
          rw [Int.floor_lt]
          push_cast
          linarith
        have hklen : k < w.len := by omega
        have hkup : (k : ℚ) + 1 > x - 1/1000000000 := by
          have h1 := Int.lt_floor_add_one (x - 1/1000000000)
          have h2 : (⌊x - 1/1000000000⌋ : ℚ) ≤ ((k : ℕ) : ℚ) := by
            have : ⌊x - 1/1000000000⌋ ≤ (k : ℤ) := by omega
            exact_mod_cast this
          linarith

        refine ⟨k, ?_, ?_, ?_, ?_⟩
        · rw [hexp, List.length_append, List.length_replicate]
          omega
        · rw [cpcGo_cons_hit p tl w rest s0 n0 htr, hexp,
            take_replicate_append _ (by omega : k + 1 ≤ w.len)]
          rw [← hxdef, ← hkdef, Prod.mk.injEq]
          refine ⟨rfl, ?_⟩
          push_cast
          ring
        · intro j hj
          have hjk : (j : ℚ) + 1 ≤ (k : ℚ) := by exact_mod_cast hj
          have hkfl : (k : ℚ) ≤ x - 1/1000000000 := by
            have hge : (0 : ℤ) ≤ ⌊x - 1/1000000000⌋ := by omega
            have : ((k : ℕ) : ℤ) = ⌊x - 1/1000000000⌋ := by omega
            have h2 : (((k : ℕ) : ℤ) : ℚ) ≤ x - 1/1000000000 := by
              rw [this]
              exact Int.floor_le _
            exact_mod_cast h2
          rw [hexp, take_replicate_append _ (by omega : j + 1 ≤ w.len)]
          have hmul : ((j : ℚ) + 1) * w.value ≤ (x - 1/1000000000) * w.value :=
            mul_le_mul_of_nonneg_right (by linarith) (le_of_lt hv)
          have hxv : x * w.value = p - s0 := by
            rw [hxdef]
            field_simp
          push_cast
          nlinarith
        · rw [hexp, getD_replicate_append _ hklen,
            take_replicate_append _ (by omega : k + 1 ≤ w.len)]
          have hxv : x * w.value = p - s0 := by
            rw [hxdef]
            field_simp
          have hmul : (x - 1/1000000000) * w.value < ((k : ℚ) + 1) * w.value :=
            mul_lt_mul_of_pos_right (by linarith) hv
          push_cast
          nlinarith
      · -- move to the next entry
        push_neg at htr
        have hposr : ∀ e ∈ rest, 0 < e.value ∧ 0 < e.len :=
          fun e he => hpos e (List.mem_cons_of_mem w he)
        have hle2 : p ≤ (s0 + (w.len : ℚ) * w.value) + (expandList rest).sum := by
          rw [hexp, List.sum_append, hsumhead] at hle
          linarith
        obtain ⟨k2, hk2len, hk2eq, hk2pre, hk2bound⟩ :=
          ih (s0 + (w.len : ℚ) * w.value) (n0 + w.len) hposr htr hle2
        refine ⟨w.len + k2, ?_, ?_, ?_, ?_⟩
        · rw [hexp, List.length_append, List.length_replicate]
          omega
        · rw [cpcGo_cons p tl w rest s0 n0 (by linarith), hk2eq, hexp,
            show w.len + k2 + 1 = w.len + (k2 + 1) by omega, take_append_beyond,
            Prod.mk.injEq]
          refine ⟨by omega, by ring⟩
        · intro j hj
          by_cases hjw : j < w.len
          · rw [hexp, take_replicate_append _ (by omega : j + 1 ≤ w.len)]
            have : ((j : ℚ) + 1) * w.value ≤ (w.len : ℚ) * w.value := by
              have : (j : ℚ) + 1 ≤ (w.len : ℚ) := by exact_mod_cast hjw
              exact mul_le_mul_of_nonneg_right this (le_of_lt hv)
            push_cast
            nlinarith
          · push_neg at hjw
            have hj2 : j - w.len < k2 := by omega
            have := hk2pre (j - w.len) hj2
            rw [hexp, show j + 1 = w.len + (j - w.len + 1) by omega, take_append_beyond]
            linarith
        · rw [hexp, show w.len + k2 + 1 = w.len + (k2 + 1) by omega, take_append_beyond,
            getD_replicate_append_right]
          linarith

theorem entries_pos_of_expand_pos :
    ∀ {off size : ℕ} {l : List (RangeMapEntry ℚ)},
      chainFrom off size l → (∀ x ∈ expandList l, 0 < x) →
      ∀ e ∈ l, 0 < e.value ∧ 0 < e.len := by
  intro off size l
  induction l generalizing off with
  | nil => intro _ _ e he; cases he
  | cons w rest ih =>
      intro hch hpos e he
      obtain ⟨h1, h2, h3⟩ := hch
      rcases List.mem_cons.mp he with he | he
      · subst he
        refine ⟨?_, h2⟩
        refine hpos e.value ?_
        show e.value ∈ expandList (e :: rest)
        rw [show expandList (e :: rest) = List.replicate e.len e.value ++ expandList rest
          from rfl]
        refine List.mem_append_left _ ?_
        rw [List.mem_replicate]
        exact ⟨by omega, rfl⟩
      · exact ih h3 (fun x hx => hpos x (by
          rw [show expandList (w :: rest) = List.replicate w.len w.value ++ expandList rest
            from rfl]
          exact List.mem_append_right _ hx)) e he

/-- C2 (amended): on a well-formed positive-weight unit-mass state of a
`Searcher` of size `N ≥ 1` (all reachable states are such):
`next_index` clamps to `N - 1` an atomic index whose cumulative mass is
nearest to 0.5 (on ties any nearest index may be produced), and always lies
in `[0, N)`; `best_index` returns an index `i ≤ N` such that every earlier
cumulative mass is `< 0.5` and `cum(i) > 0.5 - 1e-9 * w_i` — in particular
`i` is the smallest index with `cum(i) ≥ 0.5` whenever no cumulative mass
lies in the interval `[0.5 - 1e-9 * w_i, 0.5)`. -/
theorem C2_next_and_best_index (s : Searcher)
    (hwf : s.weights.WF (s.len + 1))
    (hpos : ∀ x ∈ expandList s.weights.values, 0 < x)
    (hmass : massList s.weights.values = 1)
    (hN : 1 ≤ s.len) :
    (∃ bi bp, confidencePercentileNearest s.weights (1/2) = some (bi, bp) ∧
      bi < s.len + 1 ∧ bp = cumAt s.weights bi ∧
      (∀ j, j < s.len + 1 → |cumAt s.weights bi - 1/2| ≤ |cumAt s.weights j - 1/2|) ∧
      s.nextIndex = min bi (s.len - 1)) ∧
    s.nextIndex < s.len ∧
    s.bestIndex ≤ s.len ∧
    (∀ j, j < s.bestIndex → cumAt s.weights j < 1/2) ∧
    1/2 - (1/1000000000) * weightAt s.weights s.bestIndex
      < cumAt s.weights s.bestIndex := by
  have hent : ∀ e ∈ s.weights.values, 0 < e.value ∧ 0 < e.len :=
    entries_pos_of_expand_pos hwf hpos
  have hlenE : (expandList s.weights.values).length = s.len + 1 := by
    have := length_expandList hwf
    omega
  have hsumE : (expandList s.weights.values).sum = 1 := by
    rw [← massList_eq_sum_expand]
    exact hmass
  -- the nearest search
  have hneq := cpnGo_ne_none (1/2) s.weights.values 0 0 none
    (Or.inl (by
      intro hcon
      rw [hcon] at hlenE
      simp [expandList] at hlenE))
  have hnear : ∀ bi bp, confidencePercentileNearest s.weights (1/2) = some (bi, bp) →
      bi < s.len + 1 ∧ bp = cumAt s.weights bi ∧
      (∀ j, j < s.len + 1 → |cumAt s.weights bi - 1/2| ≤ |cumAt s.weights j - 1/2|) := by
    intro bi bp hres
    obtain ⟨hA, -, hC⟩ := cpnGo_spec (1/2) s.weights.values 0 0 none bi bp hent hres
    have hcand : IsCand (expandList s.weights.values) 0 0 (bi, bp) := by
      rcases hA with hA | hA
      · cases hA
      · exact hA
    obtain ⟨k, hk, hk1, hk2⟩ := hcand
    have hbi : bi = k := by omega
    subst hbi
    have hk2b : bp = 0 + ((expandList s.weights.values).take (bi + 1)).sum := hk2
    have hcum : cumAt s.weights bi = bp := by
      rw [hk2b, cumAt]
      ring
    refine ⟨by omega, hcum.symm, ?_⟩
    intro j hj
    have hj2 : IsCand (expandList s.weights.values) 0 0 (j, cumAt s.weights j) := by
      refine ⟨j, by omega, by omega, ?_⟩
      rw [cumAt]
      ring
    have h6 : |bp - 1/2| ≤ |cumAt s.weights j - 1/2| := hC (j, cumAt s.weights j) hj2
    rw [hcum]
    exact h6
  rcases hcase : confidencePercentileNearest s.weights (1/2) with - | bb
  · exact absurd hcase hneq
  · obtain ⟨bi, bp⟩ := bb
    obtain ⟨hb1, hb2, hb3⟩ := hnear bi bp hcase
    have hcase0 : confidencePercentileNearest s.weights (1/2) = some (bi, bp) := hcase
    have hnext : s.nextIndex = min bi (s.len - 1) := by
      unfold Searcher.nextIndex
      rw [hcase]
      rfl
    -- the ceil search
    obtain ⟨k, hklen, hkeq, hkpre, hkbound⟩ :=
      cpcGo_spec (1/2) s.weights.size s.weights.values 0 0 hent (by norm_num)
        (by rw [hsumE]; norm_num)
    have hbest : s.bestIndex = k := by
      unfold Searcher.bestIndex RangeMap.cpCeil
      rw [hkeq]
      show 0 + k = k
      omega
    refine ⟨⟨bi, bp, rfl, hb1, hb2, hb3, hnext⟩, ?_, ?_, ?_, ?_⟩
    · rw [hnext]
      have : min bi (s.len - 1) ≤ s.len - 1 := Nat.min_le_right _ _
      omega
    · rw [hbest]
      omega
    · intro j hj
      rw [hbest] at hj
      have := hkpre j hj
      rw [cumAt]
      linarith
    · rw [hbest]
      have hw : weightAt s.weights k = (expandList s.weights.values).getD k 0 := rfl
      rw [hw, cumAt]
      linarith

theorem Searcher_eq_of (s t : Searcher) (h1 : s.weights.values = t.weights.values)
    (h2 : s.len = t.len) : s = t := by
  obtain ⟨⟨v1⟩, l1⟩ := s
  obtain ⟨⟨v2⟩, l2⟩ := t
  simp_all

/-- C2 counterexample.  (i) On the initial `Searcher(2)` state the cumulative
masses of indices 0 and 1 (namely 1/3 and 2/3) are equally near 0.5, yet
`next_index` returns 1, not the smaller tied index 0.  (ii) On a state of
`Searcher(9)` reached by two `report_with_stiffness` calls with positive
stiffnesses, `best_index` returns 3 although the cumulative mass at 3 is
(barely) below 0.5 — the `- 1e-9` guard in the truncating cast undershoots —
so 3 is not the smallest index with cumulative mass ≥ 0.5. -/
theorem C2_counterexample :
    ((Searcher.new 2).nextIndex = 1 ∧
      |cumAt (Searcher.new 2).weights 0 - 1/2| = |cumAt (Searcher.new 2).weights 1 - 1/2|) ∧
    ((((Searcher.new 9).reportWithStiffness 0 true ((2 - 4/10^10)/3)).reportWithStiffness 1
        true (1/2)).bestIndex = 3 ∧
      cumAt ((((Searcher.new 9).reportWithStiffness 0 true ((2 - 4/10^10)/3)).reportWithStiffness
        1 true (1/2)).weights) 3 < 1/2) := by
  have e1 : (Searcher.new 2).weights = ⟨[⟨0, 3, 1/3⟩]⟩ := by
    show (⟨[⟨0, 3, 1/(((2:ℕ) : ℚ) + 1)⟩]⟩ : RangeMap ℚ) = _
    norm_num
  constructor
  · constructor
    · show min ((cpnGo (1/2) (Searcher.new 2).weights.values 0 0 none).getD (0, 0)).1
          ((Searcher.new 2).len - 1) = 1
      rw [e1]
      rw [show ((Searcher.new 2).len - 1) = 1 from rfl]
      rw [cpnGo_cons]
      show min ((cpnUpdate (1/2) 0 0 ⟨0, 3, 1/3⟩ none).getD (0, 0)).1 1 = 1
      simp only [cpnUpdate]
      have hmax : max (0 : ℚ) ((1/2 - 0) / ((⟨0, 3, 1/3⟩ : RangeMapEntry ℚ)).value - 1/2)
          = 1 := by
        show max (0 : ℚ) ((1/2 - 0) / (1/3) - 1/2) = 1
        rw [show ((1:ℚ)/2 - 0) / (1/3) - 1/2 = 1 by norm_num]
        exact max_eq_right (by norm_num)
      rw [hmax]
      norm_num
    · rw [e1]
      show |([(1:ℚ)/3].sum) - 1/2| = |([(1:ℚ)/3, 1/3].sum) - 1/2|
      rw [show ([(1:ℚ)/3].sum) - 1/2 = -(1/6) by simp; norm_num,
        show ([(1:ℚ)/3, 1/3].sum) - 1/2 = 1/6 by simp; norm_num, abs_neg]
  · have e2 : ((Searcher.new 9).reportWithStiffness 0 true ((2 - 4/10^10)/3))
        = ⟨⟨[⟨0, 1, 12499999999/79999999999⟩, ⟨1, 9, 7500000000/79999999999⟩]⟩, 9⟩ := by
      refine Searcher_eq_of _ _ ?_ rfl
      show normalizeEntries
          (reportRange (RangeMap.new 10 (1/(((9:ℕ) : ℚ) + 1))) 0 true ((2 - 4/10^10)/3)).values
        = _
      norm_num [reportRange, RangeMap.new, splitEntryList, scaleEntries, mulLastEntry,
        normalizeEntries, massList, RangeMapEntry.endIdx]
    rw [e2]
    have e3 : ((⟨⟨[⟨0, 1, 12499999999/79999999999⟩, ⟨1, 9, 7500000000/79999999999⟩]⟩, 9⟩ :
          Searcher).reportWithStiffness 1 true (1/2))
        = ⟨⟨[⟨0, 1, 12499999999/59999999999⟩, ⟨1, 1, 7500000000/59999999999⟩,
            ⟨2, 8, 5000000000/59999999999⟩]⟩, 9⟩ := by
      refine Searcher_eq_of _ _ ?_ rfl
      show normalizeEntries
          (reportRange (⟨[⟨0, 1, 12499999999/79999999999⟩, ⟨1, 9, 7500000000/79999999999⟩]⟩ :
            RangeMap ℚ) 1 true (1/2)).values
        = _
      norm_num [reportRange, splitEntryList, scaleEntries, mulLastEntry,
        normalizeEntries, massList, RangeMapEntry.endIdx]
    rw [e3]
    constructor
    · show (cpcGo (1/2)
          ((⟨[⟨0, 1, 12499999999/59999999999⟩, ⟨1, 1, 7500000000/59999999999⟩,
            ⟨2, 8, 5000000000/59999999999⟩]⟩ : RangeMap ℚ)).size
          [⟨0, 1, 12499999999/59999999999⟩, ⟨1, 1, 7500000000/59999999999⟩,
            ⟨2, 8, 5000000000/59999999999⟩] 0 0).1 = 3
      rw [cpcGo_cons _ _ _ _ _ _ (by norm_num), cpcGo_cons _ _ _ _ _ _ (by norm_num),
        cpcGo_cons_hit _ _ _ _ _ _ (by norm_num)]
      have hq : ((1:ℚ)/2 - (0 + (1 : ℕ) * (12499999999/59999999999)
            + (1 : ℕ) * (7500000000/59999999999)))
            / ((⟨2, 8, 5000000000/59999999999⟩ : RangeMapEntry ℚ)).value - 1/1000000000
          = 19999999991/10000000000 := by
        show ((1:ℚ)/2 - (0 + (1 : ℕ) * (12499999999/59999999999)
            + (1 : ℕ) * (7500000000/59999999999)))
            / ((5000000000 : ℚ)/59999999999) - 1/1000000000 = 19999999991/10000000000
        norm_num
      rw [show (0 + (1:ℕ) * ((12499999999:ℚ)/59999999999)) + (1:ℕ) * (7500000000/59999999999)
          = 0 + (1 : ℕ) * (12499999999/59999999999) + (1 : ℕ) * (7500000000/59999999999)
          from by ring] at *
      simp only [hq]
      rw [show ⌊(19999999991 : ℚ)/10000000000⌋ = 1 by
        rw [Int.floor_eq_iff]
        norm_num]
      rfl
    · show ((expandList [⟨0, 1, (12499999999:ℚ)/59999999999⟩,
          ⟨1, 1, 7500000000/59999999999⟩, ⟨2, 8, 5000000000/59999999999⟩]).take 4).sum < 1/2
      norm_num [expandList, RangeMapEntry.expandE, List.replicate]

/-- Witness for C2's amended theorem at a concrete input. -/
theorem C2_next_and_best_index_witness :
    ((Searcher.new 1).weights.WF ((Searcher.new 1).len + 1) ∧
      (∀ x ∈ expandList (Searcher.new 1).weights.values, 0 < x) ∧
      massList (Searcher.new 1).weights.values = 1 ∧ 1 ≤ (Searcher.new 1).len) ∧
    ((∃ bi bp, confidencePercentileNearest (Searcher.new 1).weights (1/2) = some (bi, bp) ∧
      bi < (Searcher.new 1).len + 1 ∧ bp = cumAt (Searcher.new 1).weights bi ∧
      (∀ j, j < (Searcher.new 1).len + 1 →
        |cumAt (Searcher.new 1).weights bi - 1/2|
          ≤ |cumAt (Searcher.new 1).weights j - 1/2|) ∧
      (Searcher.new 1).nextIndex = min bi ((Searcher.new 1).len - 1)) ∧
    (Searcher.new 1).nextIndex < (Searcher.new 1).len ∧
    (Searcher.new 1).bestIndex ≤ (Searcher.new 1).len ∧
    (∀ j, j < (Searcher.new 1).bestIndex → cumAt (Searcher.new 1).weights j < 1/2) ∧
    1/2 - (1/1000000000) * weightAt (Searcher.new 1).weights (Searcher.new 1).bestIndex
      < cumAt (Searcher.new 1).weights (Searcher.new 1).bestIndex) :=
  ⟨⟨(searcher_new_invariant 1).2.1, (searcher_new_invariant 1).2.2.1,
    (searcher_new_invariant 1).2.2.2, by decide⟩,
    C2_next_and_best_index (Searcher.new 1) (searcher_new_invariant 1).2.1
      (searcher_new_invariant 1).2.2.1 (searcher_new_invariant 1).2.2.2 (by decide)⟩

/-! ## FlakinessTracker (src/robust-binary-search/src/flakiness_tracker.rs)

The `BTreeMap<usize, (usize, usize)>` of votes is modelled as an association
list sorted by index, iterated in ascending-key order as the BTreeMap is;
each element is `(index, (tails, heads))`. -/

structure FlakinessTracker where
  votes : List (ℕ × ℕ × ℕ)
  totalHeads : ℕ
  totalTails : ℕ
deriving Repr, DecidableEq

/-- `FlakinessTracker::default()`. -/
def FlakinessTracker.empty : FlakinessTracker := ⟨[], 0, 0⟩

/-- `self.votes.entry(index).or_insert((0, 0))` followed by the two
conditional increments, preserving ascending key order. -/
def insertVote (index : ℕ) (heads : Bool) : List (ℕ × ℕ × ℕ) → List (ℕ × ℕ × ℕ)
  | [] => [(index, (if heads then 0 else 1), if heads then 1 else 0)]
  | (k, t, h) :: rest =>
    if index = k then
      (k, t + (if heads then 0 else 1), h + (if heads then 1 else 0)) :: rest
    else if index < k then
      (index, (if heads then 0 else 1), if heads then 1 else 0) :: (k, t, h) :: rest
    else
      (k, t, h) :: insertVote index heads rest

/-- `FlakinessTracker::report`. -/
def FlakinessTracker.report (tr : FlakinessTracker) (index : ℕ) (heads : Bool) :
    FlakinessTracker :=
  { votes := insertVote index heads tr.votes,
    totalHeads := tr.totalHeads + (if heads then 1 else 0),
    totalTails := tr.totalTails + (if heads then 0 else 1) }

/-- Loop of `FlakinessTracker::inversions` (flakiness_tracker.rs 47–60):
accumulators are `headstotal`, `inverted`, `random_inversions`,
`total_votes`, all updated after being used, exactly as in the source. -/
def inversionsGo : List (ℕ × ℕ × ℕ) → ℕ → ℕ → ℕ → ℕ → ℕ × ℕ
  | [], _, inverted, randInv, _ => (inverted, randInv)
  | (_, t, h) :: rest, headstotal, inverted, randInv, totalVotes =>
    inversionsGo rest (headstotal + h)
      (inverted + t * headstotal + t * h)
      (randInv + (h + t) * (h + t) + (h + t) * totalVotes)
      (totalVotes + (h + t))

/-- `FlakinessTracker::inversions`. -/
def FlakinessTracker.inversions (tr : FlakinessTracker) : ℕ × ℕ :=
  inversionsGo tr.votes 0 0 0 0

/-- `FlakinessTracker::flakiness` (flakiness_tracker.rs 115–123):
`r = (inv + 1)/(rand_inv + 7.6143)`, then
`(0.1698*r*r + 3.7844*r).min(1.0).max(0.0)`. -/
def FlakinessTracker.flakiness (tr : FlakinessTracker) : ℚ :=
  let p := tr.inversions
  let r : ℚ := ((p.1 : ℚ) + 1) / ((p.2 : ℚ) + 76143/10000)
  max (min ((1698/10000) * r * r + (37844/10000) * r) 1) 0

/-- Per-bucket-contribution form of the inversion scan: each bucket
contributes `tails * headstotal + tails * heads` inversions and
`votes^2 + votes * total_votes` random inversions, where `headstotal` /
`total_votes` are the totals over strictly earlier buckets (`H` and `V`
accumulate them). -/
def invSpec : List (ℕ × ℕ × ℕ) → ℕ → ℕ → ℕ × ℕ
  | [], _, _ => (0, 0)
  | (_, t, h) :: rest, H, V =>
    ((t * H + t * h) + (invSpec rest (H + h) (V + (h + t))).1,
      ((h + t) * (h + t) + (h + t) * V) + (invSpec rest (H + h) (V + (h + t))).2)

theorem inversionsGo_eq_spec :
    ∀ (l : List (ℕ × ℕ × ℕ)) (H I R V : ℕ),
      inversionsGo l H I R V = (I + (invSpec l H V).1, R + (invSpec l H V).2) := by
  intro l
  induction l with
  | nil => intro H I R V; simp [inversionsGo, invSpec]
  | cons b rest ih =>
      intro H I R V
      obtain ⟨k, t, h⟩ := b
      rw [show inversionsGo ((k, t, h) :: rest) H I R V
          = inversionsGo rest (H + h) (I + t * H + t * h)
              (R + (h + t) * (h + t) + (h + t) * V) (V + (h + t)) from rfl]
      rw [ih]
      rw [show invSpec ((k, t, h) :: rest) H V
          = ((t * H + t * h) + (invSpec rest (H + h) (V + (h + t))).1,
              ((h + t) * (h + t) + (h + t) * V) + (invSpec rest (H + h) (V + (h + t))).2)
        from rfl]
      dsimp only
      rw [Prod.mk.injEq]
      constructor <;> omega

/-- The tracker state after one hundred `report(0, true)` calls followed by
one `report(0, false)`. -/
def hundredHeadsOneTail : FlakinessTracker :=
  (List.replicate 100 ((0 : ℕ), true) ++ [((0 : ℕ), false)]).foldl
    (fun tr op => tr.report op.1 op.2) FlakinessTracker.empty

/-- C4: `inversions()` is the scan accumulating
`I += tails * headstotal + tails * heads` and
`R += votes^2 + votes * total_votes` per bucket in increasing index order,
with `headstotal` / `total_votes` the running totals over strictly earlier
buckets; in particular after 100 `report(0, true)` and one `report(0, false)`
it returns `(100, 10201)`. -/
theorem C4_inversions_formula :
    (∀ tr : FlakinessTracker, tr.inversions = invSpec tr.votes 0 0) ∧
      hundredHeadsOneTail.inversions = (100, 10201) := by
  constructor
  · intro tr
    rw [FlakinessTracker.inversions, inversionsGo_eq_spec]
    simp
  · decide

theorem min_max_clamp (x : ℚ) : max (min x 1) 0 = min (max x 0) 1 := by
  rcases le_total x 0 with h | h <;> rcases le_total x 1 with h2 | h2 <;>
    simp [min_def, max_def] <;> split_ifs <;> linarith

/-- Exact value of the empty tracker's flakiness. -/
theorem empty_flakiness_value :
    FlakinessTracker.empty.flakiness = 2898535692/5797756449 := by
  show max (min ((1698/10000 : ℚ)
      * ((((0 : ℕ) : ℚ) + 1) / (((0 : ℕ) : ℚ) + 76143/10000))
      * ((((0 : ℕ) : ℚ) + 1) / (((0 : ℕ) : ℚ) + 76143/10000))
      + (37844/10000) * ((((0 : ℕ) : ℚ) + 1) / (((0 : ℕ) : ℚ) + 76143/10000))) 1) 0 = _
  rw [show (1698/10000 : ℚ) * ((((0 : ℕ) : ℚ) + 1) / (((0 : ℕ) : ℚ) + 76143/10000))
      * ((((0 : ℕ) : ℚ) + 1) / (((0 : ℕ) : ℚ) + 76143/10000))
      + (37844/10000) * ((((0 : ℕ) : ℚ) + 1) / (((0 : ℕ) : ℚ) + 76143/10000))
      = 2898535692/5797756449 by norm_num]
  rw [min_eq_left (by norm_num), max_eq_left (by norm_num)]

/-- C5 counterexample: the empty tracker does not return exactly 0.5: it
returns `2898535692/5797756449 ≈ 0.4999546`. -/
theorem C5_empty_flakiness_not_half :
    FlakinessTracker.empty.flakiness ≠ 1/2 ∧
      FlakinessTracker.empty.flakiness = 2898535692/5797756449 :=
  ⟨by rw [empty_flakiness_value]; norm_num, empty_flakiness_value⟩

/-- C5 (amended): `flakiness()` equals
`clamp(0.1698 r^2 + 3.7844 r, 0, 1)` with `r = (I + 1)/(R + 7.6143)`, so it
always lies in [0, 1]; the empty tracker returns `≈ 0.49995`, within `1e-4`
of 0.5 (but not exactly 0.5). -/
theorem C5_flakiness_formula (tr : FlakinessTracker) :
    (tr.flakiness
        = min (max ((1698/10000)
            * (((tr.inversions.1 : ℚ) + 1) / ((tr.inversions.2 : ℚ) + 76143/10000))
            * (((tr.inversions.1 : ℚ) + 1) / ((tr.inversions.2 : ℚ) + 76143/10000))
          + (37844/10000)
            * (((tr.inversions.1 : ℚ) + 1) / ((tr.inversions.2 : ℚ) + 76143/10000))) 0) 1) ∧
      0 ≤ tr.flakiness ∧ tr.flakiness ≤ 1 ∧
      |FlakinessTracker.empty.flakiness - 1/2| < 1/10^4 := by
  refine ⟨?_, ?_, ?_, ?_⟩
  · rw [show tr.flakiness = max (min ((1698/10000)
        * (((tr.inversions.1 : ℚ) + 1) / ((tr.inversions.2 : ℚ) + 76143/10000))
        * (((tr.inversions.1 : ℚ) + 1) / ((tr.inversions.2 : ℚ) + 76143/10000))
        + (37844/10000)
        * (((tr.inversions.1 : ℚ) + 1) / ((tr.inversions.2 : ℚ) + 76143/10000))) 1) 0
      from rfl]
    exact min_max_clamp _
  · exact le_max_right _ _
  · rw [show tr.flakiness = max (min ((1698/10000)
        * (((tr.inversions.1 : ℚ) + 1) / ((tr.inversions.2 : ℚ) + 76143/10000))
        * (((tr.inversions.1 : ℚ) + 1) / ((tr.inversions.2 : ℚ) + 76143/10000))
        + (37844/10000)
        * (((tr.inversions.1 : ℚ) + 1) / ((tr.inversions.2 : ℚ) + 76143/10000))) 1) 0
      from rfl]
    exact max_le (min_le_right _ _) (by norm_num)
  · rw [empty_flakiness_value]
    rw [show (2898535692 : ℚ)/5797756449 - 1/2 = -(685065/11595512898) by norm_num]
    rw [abs_neg, abs_of_nonneg (by norm_num)]
    norm_num


/-! ### DAG embedding (dag.rs) -/

/-- A node in a DAG (dag.rs `DAGNode`); values are specialized to `ℕ`
(the only instantiation used by the searcher is `CompressedDAGSegment`,
which is a bare `len : usize`). -/
structure DAGNode where
  value : ℕ
  inputs : List ℕ
  ancestors : Finset ℕ
  remainderAncestors : List ℕ
deriving DecidableEq

/-- dag.rs `DAG`. -/
structure DAG where
  nodes : List DAGNode
deriving DecidableEq

/-- The inputs list of node `a`, or `[]` when out of range
(`self.nodes[ancestor].inputs`, total variant). -/
def DAG.inputsOf (d : DAG) (a : ℕ) : List ℕ :=
  ((d.nodes[a]?).map DAGNode.inputs).getD []

/-- The DFS loop of `DAG::add_node` (dag.rs lines 113-120): pops from the head
of the queue (modelling the `Vec` stack whose top is the head here), skips
nodes already in `anc`, otherwise inserts into both accumulators and pushes
the node's inputs (reversed, to model pushing in order then popping). -/
def DAG.dfs (d : DAG) : List ℕ → Finset ℕ → Finset ℕ → Finset ℕ × Finset ℕ
  | [], anc, rem => (anc, rem)
  | a :: queue, anc, rem =>
    if h : a ∈ anc then d.dfs queue anc rem
    else d.dfs ((d.inputsOf a).reverse ++ queue) (insert a anc) (insert a rem)
termination_by l anc rem => ((Finset.range d.nodes.length \ anc).card, l.length)
decreasing_by
  · exact Prod.Lex.right _ (Nat.lt_succ_self _)
  · by_cases han : a < d.nodes.length
    · refine Prod.Lex.left _ _ ?_
      refine Finset.card_lt_card ⟨?_, ?_⟩
      · intro x hx
        simp only [Finset.mem_sdiff, Finset.mem_insert, not_or] at hx ⊢
        exact ⟨hx.1, hx.2.2⟩
      · intro hss
        have hmem : a ∈ Finset.range d.nodes.length \ anc := by
          simp only [Finset.mem_sdiff, Finset.mem_range]
          exact ⟨han, h⟩
        have := hss hmem
        simp at this
    · have hinp : d.inputsOf a = [] := by
        unfold DAG.inputsOf
        rw [List.getElem?_eq_none (by omega)]
        rfl
      have hcard : Finset.range d.nodes.length \ insert a anc
          = Finset.range d.nodes.length \ anc := by
        ext x
        simp only [Finset.mem_sdiff, Finset.mem_range, Finset.mem_insert, not_or]
        constructor
        · rintro ⟨h1, _, h3⟩
          exact ⟨h1, h3⟩
        · rintro ⟨h1, h2⟩
          exact ⟨h1, by omega, h2⟩
      rw [hinp, hcard]
      refine Prod.Lex.right _ ?_
      simp only [List.reverse_nil, List.nil_append, List.length_cons]
      omega

/-- Unfolding: DFS on the empty queue. -/
theorem dfs_nil (d : DAG) (anc rem : Finset ℕ) : d.dfs [] anc rem = (anc, rem) := by
  rw [DAG.dfs]

/-- Unfolding: DFS pops the head of the queue. -/
theorem dfs_cons (d : DAG) (a : ℕ) (queue : List ℕ) (anc rem : Finset ℕ) :
    d.dfs (a :: queue) anc rem =
      if a ∈ anc then d.dfs queue anc rem
      else d.dfs ((d.inputsOf a).reverse ++ queue) (insert a anc) (insert a rem) := by
  rw [DAG.dfs]
  by_cases h : a ∈ anc
  · rw [dif_pos h, if_pos h]
  · rw [dif_neg h, if_neg h]

/-- The intended semantics of `ancestors`: the transitive closure of a node's
inputs (restricted to indices below the node, as valid DAGs require),
excluding the node itself. -/
def ancSpec (f : ℕ → List ℕ) (k : ℕ) : Finset ℕ :=
  (((f k).filter (fun i => decide (i < k))).toFinset.attach).biUnion
    (fun j => insert j.1 (ancSpec f j.1))
termination_by k
decreasing_by
  have hj := j.2
  simp only [List.mem_toFinset, List.mem_filter, decide_eq_true_eq] at hj
  exact hj.2

theorem mem_ancSpec {f : ℕ → List ℕ} {k x : ℕ} :
    x ∈ ancSpec f k ↔ ∃ j, (j ∈ f k ∧ j < k) ∧ (x = j ∨ x ∈ ancSpec f j) := by
  rw [ancSpec]
  simp only [Finset.mem_biUnion, Finset.mem_attach, true_and, Subtype.exists,
    List.mem_toFinset, List.mem_filter, decide_eq_true_eq, Finset.mem_insert, exists_prop]

theorem ancSpec_lt {f : ℕ → List ℕ} : ∀ k, ∀ x ∈ ancSpec f k, x < k := by
  intro k
  induction k using Nat.strong_induction_on with
  | _ k ih =>
    intro x hx
    rcases mem_ancSpec.1 hx with ⟨j, ⟨hjf, hjk⟩, rfl | hxj⟩
    · exact hjk
    · exact lt_trans (ih j hjk x hxj) hjk

theorem input_mem_ancSpec {f : ℕ → List ℕ} {k j : ℕ} (hj : j ∈ f k) (hjk : j < k) :
    j ∈ ancSpec f k :=
  mem_ancSpec.2 ⟨j, ⟨hj, hjk⟩, Or.inl rfl⟩

theorem ancSpec_input_subset {f : ℕ → List ℕ} {k j : ℕ} (hj : j ∈ f k) (hjk : j < k) :
    insert j (ancSpec f j) ⊆ ancSpec f k := by
  intro x hx
  rcases Finset.mem_insert.1 hx with rfl | hx
  · exact input_mem_ancSpec hj hjk
  · exact mem_ancSpec.2 ⟨j, ⟨hj, hjk⟩, Or.inr hx⟩

/-- All inputs point strictly below their node. -/
def InputsLT (f : ℕ → List ℕ) : Prop := ∀ j, ∀ i ∈ f j, i < j

/-- `S` is closed under taking inputs. -/
def ClosedUnder (f : ℕ → List ℕ) (S : Finset ℕ) : Prop := ∀ x ∈ S, ∀ i ∈ f x, i ∈ S

theorem ancSpec_closed {f : ℕ → List ℕ} (hf : InputsLT f) :
    ∀ k, ClosedUnder f (ancSpec f k) := by
  intro k
  induction k using Nat.strong_induction_on with
  | _ k ih =>
    intro x hx i hi
    rcases mem_ancSpec.1 hx with ⟨j, ⟨hjf, hjk⟩, rfl | hxj⟩
    · exact ancSpec_input_subset hjf hjk
        (Finset.mem_insert_of_mem (input_mem_ancSpec hi (hf _ _ hi)))
    · exact ancSpec_input_subset hjf hjk
        (Finset.mem_insert_of_mem (ih j hjk x hxj i hi))

theorem ancSpec_subset_of_closed {f : ℕ → List ℕ} {S : Finset ℕ}
    (hS : ClosedUnder f S) : ∀ j ∈ S, ancSpec f j ⊆ S := by
  intro j
  induction j using Nat.strong_induction_on with
  | _ j ih =>
    intro hjS x hx
    rcases mem_ancSpec.1 hx with ⟨i, ⟨hif, hij⟩, rfl | hxi⟩
    · exact hS j hjS x hif
    · exact ih i hij (hS j hjS i hif) hxi

theorem ancSpec_subset_congr {f g : ℕ → List ℕ} :
    ∀ k, (∀ j ≤ k, f j = g j) → ancSpec f k ⊆ ancSpec g k := by
  intro k
  induction k using Nat.strong_induction_on with
  | _ k ih =>
    intro hfg x hx
    rcases mem_ancSpec.1 hx with ⟨j, ⟨hjf, hjk⟩, hx⟩
    refine mem_ancSpec.2 ⟨j, ⟨?_, hjk⟩, ?_⟩
    · rw [← hfg k le_rfl]; exact hjf
    · rcases hx with rfl | hx
      · exact Or.inl rfl
      · exact Or.inr (ih j hjk (fun i hi => hfg i (hi.trans hjk.le)) hx)

theorem ancSpec_congr {f g : ℕ → List ℕ} (k : ℕ) (hfg : ∀ j ≤ k, f j = g j) :
    ancSpec f k = ancSpec g k :=
  Finset.Subset.antisymm (ancSpec_subset_congr k hfg)
    (ancSpec_subset_congr k (fun j hj => (hfg j hj).symm))

theorem ancSpec_subset_congr_toFinset {f g : ℕ → List ℕ} :
    ∀ k, (∀ j ≤ k, (f j).toFinset = (g j).toFinset) → ancSpec f k ⊆ ancSpec g k := by
  intro k
  induction k using Nat.strong_induction_on with
  | _ k ih =>
    intro hfg x hx
    rcases mem_ancSpec.1 hx with ⟨j, ⟨hjf, hjk⟩, hx⟩
    refine mem_ancSpec.2 ⟨j, ⟨?_, hjk⟩, ?_⟩
    · exact List.mem_toFinset.1 (hfg k le_rfl ▸ List.mem_toFinset.2 hjf)
    · rcases hx with rfl | hx
      · exact Or.inl rfl
      · exact Or.inr (ih j hjk (fun i hi => hfg i (hi.trans hjk.le)) hx)

theorem ancSpec_congr_toFinset {f g : ℕ → List ℕ} (k : ℕ)
    (hfg : ∀ j ≤ k, (f j).toFinset = (g j).toFinset) :
    ancSpec f k = ancSpec g k :=
  Finset.Subset.antisymm (ancSpec_subset_congr_toFinset k hfg)
    (ancSpec_subset_congr_toFinset k (fun j hj => (hfg j hj).symm))

theorem dfs_anc_subset (d : DAG) :
    ∀ l (anc rem : Finset ℕ), anc ⊆ (d.dfs l anc rem).1 := by
  intro l anc rem
  induction l, anc, rem using DAG.dfs.induct d with
  | case1 anc rem =>
    rw [dfs_nil]
  | case2 a queue anc rem h ih =>
    rw [dfs_cons, if_pos h]
    exact ih
  | case3 a queue anc rem h ih =>
    rw [dfs_cons, if_neg h]
    exact (Finset.subset_insert a anc).trans ih

theorem dfs_mem_of_mem_queue (d : DAG) :
    ∀ l (anc rem : Finset ℕ), ∀ x ∈ l, x ∈ (d.dfs l anc rem).1 := by
  intro l anc rem
  induction l, anc, rem using DAG.dfs.induct d with
  | case1 anc rem =>
    intro x hx
    exact absurd hx (List.not_mem_nil x)
  | case2 a queue anc rem h ih =>
    intro x hx
    rw [dfs_cons, if_pos h]
    rcases List.mem_cons.1 hx with rfl | hx
    · exact dfs_anc_subset d queue anc rem h
    · exact ih x hx
  | case3 a queue anc rem h ih =>
    intro x hx
    rw [dfs_cons, if_neg h]
    rcases List.mem_cons.1 hx with rfl | hx
    · exact dfs_anc_subset d _ _ _ (Finset.mem_insert_self x anc)
    · exact ih x (List.mem_append_right _ hx)

theorem dfs_shape (d : DAG) :
    ∀ l (anc rem : Finset ℕ), rem ⊆ anc →
      (d.dfs l anc rem).1 = anc ∪ (d.dfs l anc rem).2 ∧
      (d.dfs l anc rem).2 ∩ anc ⊆ rem ∧
      rem ⊆ (d.dfs l anc rem).2 := by
  intro l anc rem
  induction l, anc, rem using DAG.dfs.induct d with
  | case1 anc rem =>
    intro hra
    rw [dfs_nil]
    exact ⟨(Finset.union_eq_left.2 hra).symm, Finset.inter_subset_left, le_rfl⟩
  | case2 a queue anc rem h ih =>
    intro hra
    rw [dfs_cons, if_pos h]
    exact ih hra
  | case3 a queue anc rem h ih =>
    intro hra
    rw [dfs_cons, if_neg h]
    obtain ⟨h1, h2, h3⟩ := ih (Finset.insert_subset_insert a hra)
    refine ⟨?_, ?_, ?_⟩
    · rw [h1]
      have ha : a ∈ (d.dfs ((d.inputsOf a).reverse ++ queue) (insert a anc) (insert a rem)).2 :=
        h3 (Finset.mem_insert_self a rem)
      ext x
      simp only [Finset.mem_union, Finset.mem_insert]
      constructor
      · rintro ((rfl | hx) | hx)
        · exact Or.inr ha
        · exact Or.inl hx
        · exact Or.inr hx
      · rintro (hx | hx)
        · exact Or.inl (Or.inr hx)
        · exact Or.inr hx
    · intro x hx
      rcases Finset.mem_inter.1 hx with ⟨hxr, hxa⟩
      have := h2 (Finset.mem_inter.2 ⟨hxr, Finset.mem_insert_of_mem hxa⟩)
      rcases Finset.mem_insert.1 this with rfl | hx2
      · exact absurd hxa h
      · exact hx2
    · exact (Finset.subset_insert a rem).trans h3

theorem dfs_subset (d : DAG) (C : Finset ℕ) (hC : ClosedUnder d.inputsOf C) :
    ∀ l (anc rem : Finset ℕ), anc ⊆ C → (∀ x ∈ l, x ∈ C) →
      (d.dfs l anc rem).1 ⊆ C := by
  intro l anc rem
  induction l, anc, rem using DAG.dfs.induct d with
  | case1 anc rem =>
    intro hanc _
    rw [dfs_nil]
    exact hanc
  | case2 a queue anc rem h ih =>
    intro hanc hl
    rw [dfs_cons, if_pos h]
    exact ih hanc (fun x hx => hl x (List.mem_cons_of_mem a hx))
  | case3 a queue anc rem h ih =>
    intro hanc hl
    rw [dfs_cons, if_neg h]
    have haC : a ∈ C := hl a (List.mem_cons_self a queue)
    refine ih (Finset.insert_subset haC hanc) ?_
    intro x hx
    rcases List.mem_append.1 hx with hx | hx
    · exact hC a haC x (List.mem_reverse.1 hx)
    · exact hl x (List.mem_cons_of_mem a hx)

theorem dfs_closed (d : DAG) :
    ∀ l (anc rem : Finset ℕ),
      (∀ x ∈ anc, ∀ i ∈ d.inputsOf x, i ∈ anc ∨ i ∈ l) →
      ClosedUnder d.inputsOf (d.dfs l anc rem).1 := by
  intro l anc rem
  induction l, anc, rem using DAG.dfs.induct d with
  | case1 anc rem =>
    intro hcl
    rw [dfs_nil]
    intro x hx i hi
    rcases hcl x hx i hi with hi2 | hi2
    · exact hi2
    · exact absurd hi2 (List.not_mem_nil i)
  | case2 a queue anc rem h ih =>
    intro hcl
    rw [dfs_cons, if_pos h]
    refine ih ?_
    intro x hx i hi
    rcases hcl x hx i hi with hi2 | hi2
    · exact Or.inl hi2
    · rcases List.mem_cons.1 hi2 with rfl | hi3
      · exact Or.inl h
      · exact Or.inr hi3
  | case3 a queue anc rem h ih =>
    intro hcl
    rw [dfs_cons, if_neg h]
    refine ih ?_
    intro x hx i hi
    rcases Finset.mem_insert.1 hx with rfl | hx2
    · exact Or.inr (List.mem_append_left _ (List.mem_reverse.2 hi))
    · rcases hcl x hx2 i hi with hi2 | hi2
      · exact Or.inl (Finset.mem_insert_of_mem hi2)
      · rcases List.mem_cons.1 hi2 with rfl | hi3
        · exact Or.inl (Finset.mem_insert_self i anc)
        · exact Or.inr (List.mem_append_right _ hi3)

/-- The (ancestors, remainder-ancestor set) pair computed by `DAG::add_node`
(dag.rs lines 103-125): empty inputs give empty sets; otherwise start from
`ancestors(inputs[0]) + {inputs[0]}` and DFS from the remaining inputs. -/
def addNodeSets (d : DAG) : List ℕ → Finset ℕ × Finset ℕ
  | [] => (∅, ∅)
  | i0 :: rest =>
    d.dfs rest.reverse (insert i0 (((d.nodes[i0]?).map DAGNode.ancestors).getD ∅)) ∅

/-- dag.rs `DAG::add_node` (lines 98-132), with the remainder set sorted
ascending as in the source. The assertion `input < nodes.len()` is carried as
a hypothesis by the theorems below. -/
def DAG.addNode (d : DAG) (value : ℕ) (inputs : List ℕ) : DAG :=
  ⟨d.nodes ++ [⟨value, inputs, (addNodeSets d inputs).1,
    ((addNodeSets d inputs).2).sort (· ≤ ·)⟩]⟩

/-- The ancestor set the DFS starts from: `{inputs[0]} ∪ ancestors(inputs[0])`,
expressed via the intended closure. -/
def anc0Of (f : ℕ → List ℕ) : List ℕ → Finset ℕ
  | [] => ∅
  | i0 :: _ => insert i0 (ancSpec f i0)

/-- Well-formedness of one node at index `k`: inputs point below `k`,
`ancestors` is the transitive closure of the inputs, and
`remainder_ancestors` is the sorted remainder. -/
def NodeOK (f : ℕ → List ℕ) (k : ℕ) (nd : DAGNode) : Prop :=
  (∀ i ∈ nd.inputs, i < k) ∧
  nd.ancestors = ancSpec f k ∧
  nd.remainderAncestors = (ancSpec f k \ anc0Of f nd.inputs).sort (· ≤ ·)

/-- Well-formedness of a whole DAG. -/
def DAG.WFDag (d : DAG) : Prop :=
  ∀ k nd, d.nodes[k]? = some nd → NodeOK d.inputsOf k nd

theorem inputsOf_eq (d : DAG) {k : ℕ} {nd : DAGNode} (hk : d.nodes[k]? = some nd) :
    d.inputsOf k = nd.inputs := by
  unfold DAG.inputsOf
  rw [hk]
  rfl

theorem WFDag_inputsLT {d : DAG} (hd : d.WFDag) : InputsLT d.inputsOf := by
  intro j i hi
  unfold DAG.inputsOf at hi
  cases hj : d.nodes[j]? with
  | none =>
    rw [hj] at hi
    exact absurd hi (List.not_mem_nil i)
  | some nd =>
    rw [hj] at hi
    exact (hd j nd hj).1 i hi

theorem addNode_nodes_length (d : DAG) (v : ℕ) (inputs : List ℕ) :
    (d.addNode v inputs).nodes.length = d.nodes.length + 1 := by
  simp [DAG.addNode]

theorem addNode_getElem?_lt {d : DAG} {v : ℕ} {inputs : List ℕ} {k : ℕ}
    (h : k < d.nodes.length) : (d.addNode v inputs).nodes[k]? = d.nodes[k]? := by
  show (d.nodes ++ _)[k]? = _
  rw [List.getElem?_append, if_pos h]

theorem addNode_getElem?_self (d : DAG) (v : ℕ) (inputs : List ℕ) :
    (d.addNode v inputs).nodes[d.nodes.length]?
      = some ⟨v, inputs, (addNodeSets d inputs).1,
          ((addNodeSets d inputs).2).sort (· ≤ ·)⟩ := by
  show (d.nodes ++ [_])[d.nodes.length]? = _
  rw [List.getElem?_concat_length]

theorem inputsOf_addNode_self (d : DAG) (v : ℕ) (inputs : List ℕ) :
    (d.addNode v inputs).inputsOf d.nodes.length = inputs := by
  unfold DAG.inputsOf
  rw [addNode_getElem?_self]
  rfl

theorem inputsOf_addNode_ne {d : DAG} {v : ℕ} {inputs : List ℕ} {j : ℕ}
    (hj : j ≠ d.nodes.length) : (d.addNode v inputs).inputsOf j = d.inputsOf j := by
  rcases lt_or_gt_of_ne hj with h | h
  · unfold DAG.inputsOf
    rw [addNode_getElem?_lt h]
  · unfold DAG.inputsOf
    rw [List.getElem?_eq_none (by rw [addNode_nodes_length]; omega),
      List.getElem?_eq_none (by omega)]

theorem addNodeSets_spec {d : DAG} (hd : d.WFDag) (v : ℕ) {inputs : List ℕ}
    (hv : ∀ i ∈ inputs, i < d.nodes.length) :
    (addNodeSets d inputs).1 = ancSpec (d.addNode v inputs).inputsOf d.nodes.length ∧
    (addNodeSets d inputs).2
      = ancSpec (d.addNode v inputs).inputsOf d.nodes.length
        \ anc0Of (d.addNode v inputs).inputsOf inputs := by
  have hIL_d : InputsLT d.inputsOf := WFDag_inputsLT hd
  have hf'n : (d.addNode v inputs).inputsOf d.nodes.length = inputs :=
    inputsOf_addNode_self d v inputs
  have hIL : InputsLT (d.addNode v inputs).inputsOf := by
    intro j i hi
    by_cases hj : j = d.nodes.length
    · subst hj
      rw [hf'n] at hi
      exact hv i hi
    · rw [inputsOf_addNode_ne hj] at hi
      exact hIL_d j i hi
  cases inputs with
  | nil =>
    have h1 : ancSpec (d.addNode v []).inputsOf d.nodes.length = ∅ := by
      rw [Finset.eq_empty_iff_forall_not_mem]
      intro x hx
      rcases mem_ancSpec.1 hx with ⟨j, ⟨hj, _⟩, _⟩
      rw [hf'n] at hj
      exact absurd hj (List.not_mem_nil j)
    refine ⟨?_, ?_⟩
    · show (∅ : Finset ℕ) = _
      rw [h1]
    · show (∅ : Finset ℕ) = _
      rw [h1]
      rfl
  | cons i0 rest =>
    set f' := (d.addNode v (i0 :: rest)).inputsOf with hfdef
    have hi0 : i0 < d.nodes.length := hv i0 (List.mem_cons_self i0 rest)
    obtain ⟨nd0, hnd0⟩ : ∃ nd0, d.nodes[i0]? = some nd0 := by
      rw [List.getElem?_eq_getElem hi0]
      exact ⟨_, rfl⟩
    have hnd0anc : nd0.ancestors = ancSpec d.inputsOf i0 := (hd i0 nd0 hnd0).2.1
    have hcongr_i0 : ancSpec d.inputsOf i0 = ancSpec f' i0 :=
      ancSpec_congr i0 (fun j hj => (inputsOf_addNode_ne (by omega)).symm)
    have hanc0 : insert i0 (((d.nodes[i0]?).map DAGNode.ancestors).getD ∅)
        = insert i0 (ancSpec f' i0) := by
      rw [hnd0]
      show insert i0 nd0.ancestors = _
      rw [hnd0anc, hcongr_i0]
    -- upper bound for the DFS result
    have hC_closed_d : ClosedUnder d.inputsOf (ancSpec f' d.nodes.length) := by
      intro x hx i hi
      have hxn : x < d.nodes.length := ancSpec_lt _ x hx
      rw [← @inputsOf_addNode_ne d v (i0 :: rest) x (by omega)] at hi
      exact ancSpec_closed hIL _ x hx i hi
    have hS0_sub : insert i0 (ancSpec f' i0) ⊆ ancSpec f' d.nodes.length :=
      ancSpec_input_subset (by rw [hf'n]; exact List.mem_cons_self i0 rest) hi0
    have hsub : (d.dfs rest.reverse (insert i0 (ancSpec f' i0)) ∅).1
        ⊆ ancSpec f' d.nodes.length := by
      refine dfs_subset d _ hC_closed_d _ _ _ hS0_sub ?_
      intro x hx
      have hxr : x ∈ rest := List.mem_reverse.1 hx
      exact input_mem_ancSpec (by rw [hf'n]; exact List.mem_cons_of_mem i0 hxr)
        (hv x (List.mem_cons_of_mem i0 hxr))
    -- the DFS result is closed
    have hS0_closed : ∀ x ∈ insert i0 (ancSpec f' i0), ∀ i ∈ d.inputsOf x,
        i ∈ insert i0 (ancSpec f' i0) ∨ i ∈ rest.reverse := by
      intro x hx i hi
      rcases Finset.mem_insert.1 hx with hx1 | hx2
      · have hxn : x < d.nodes.length := by rw [hx1]; exact hi0
        rw [← @inputsOf_addNode_ne d v (i0 :: rest) x (by omega)] at hi
        rw [hx1] at hi
        exact Or.inl (Finset.mem_insert_of_mem (input_mem_ancSpec hi (hIL i0 i hi)))
      · have hxi0 : x < i0 := ancSpec_lt i0 x hx2
        rw [← @inputsOf_addNode_ne d v (i0 :: rest) x (by omega)] at hi
        exact Or.inl (Finset.mem_insert_of_mem (ancSpec_closed hIL i0 x hx2 i hi))
    have hA_closed_d : ClosedUnder d.inputsOf
        (d.dfs rest.reverse (insert i0 (ancSpec f' i0)) ∅).1 :=
      dfs_closed d _ _ _ hS0_closed
    have hA_closed : ClosedUnder f'
        (d.dfs rest.reverse (insert i0 (ancSpec f' i0)) ∅).1 := by
      intro x hx i hi
      have hxn : x < d.nodes.length := ancSpec_lt _ x (hsub hx)
      rw [hfdef, inputsOf_addNode_ne (by omega)] at hi
      exact hA_closed_d x hx i hi
    have hsup : ancSpec f' d.nodes.length
        ⊆ (d.dfs rest.reverse (insert i0 (ancSpec f' i0)) ∅).1 := by
      intro x hx
      rcases mem_ancSpec.1 hx with ⟨j, ⟨hjf, hjn⟩, hcase⟩
      rw [hf'n] at hjf
      have hjA : j ∈ (d.dfs rest.reverse (insert i0 (ancSpec f' i0)) ∅).1 := by
        rcases List.mem_cons.1 hjf with hj1 | hj2
        · subst hj1
          exact dfs_anc_subset d _ _ _ (Finset.mem_insert_self j _)
        · exact dfs_mem_of_mem_queue d _ _ _ j (List.mem_reverse.2 hj2)
      rcases hcase with rfl | hx2
      · exact hjA
      · exact ancSpec_subset_of_closed hA_closed j hjA hx2
    have hA : (d.dfs rest.reverse (insert i0 (ancSpec f' i0)) ∅).1
        = ancSpec f' d.nodes.length := Finset.Subset.antisymm hsub hsup
    obtain ⟨hs1, hs2, _⟩ := dfs_shape d rest.reverse (insert i0 (ancSpec f' i0)) ∅
      (Finset.empty_subset _)
    have hR : (d.dfs rest.reverse (insert i0 (ancSpec f' i0)) ∅).2
        = ancSpec f' d.nodes.length \ insert i0 (ancSpec f' i0) := by
      ext x
      simp only [Finset.mem_sdiff]
      constructor
      · intro hx
        refine ⟨by rw [← hA, hs1]; exact Finset.mem_union_right _ hx, ?_⟩
        intro hxS0
        have := hs2 (Finset.mem_inter.2 ⟨hx, hxS0⟩)
        simp at this
      · rintro ⟨hx1, hx2⟩
        rw [← hA, hs1] at hx1
        rcases Finset.mem_union.1 hx1 with hx3 | hx3
        · exact absurd hx3 hx2
        · exact hx3
    refine ⟨?_, ?_⟩
    · show (d.dfs rest.reverse (insert i0 (((d.nodes[i0]?).map DAGNode.ancestors).getD ∅)) ∅).1 = _
      rw [hanc0, hA]
    · show (d.dfs rest.reverse (insert i0 (((d.nodes[i0]?).map DAGNode.ancestors).getD ∅)) ∅).2 = _
      rw [hanc0, hR]
      rfl

theorem addNode_WFDag {d : DAG} (hd : d.WFDag) {v : ℕ} {inputs : List ℕ}
    (hv : ∀ i ∈ inputs, i < d.nodes.length) : (d.addNode v inputs).WFDag := by
  intro k nd hk
  by_cases hkn : k < d.nodes.length
  · rw [addNode_getElem?_lt hkn] at hk
    obtain ⟨h1, h2, h3⟩ := hd k nd hk
    have hcongr : ∀ j, j ≤ k → (d.addNode v inputs).inputsOf j = d.inputsOf j :=
      fun j hj => inputsOf_addNode_ne (by omega)
    refine ⟨h1, ?_, ?_⟩
    · rw [h2, ancSpec_congr k hcongr]
    · rw [h3, ancSpec_congr k hcongr]
      cases hni : nd.inputs with
      | nil => rfl
      | cons i0 rest =>
        have hi0k : i0 < k := h1 i0 (by rw [hni]; exact List.mem_cons_self i0 rest)
        show _ = (_ \ insert i0 (ancSpec (d.addNode v inputs).inputsOf i0)).sort _
        rw [ancSpec_congr i0 (fun j hj => inputsOf_addNode_ne (by omega))]
        rfl
  · by_cases hkn2 : k = d.nodes.length
    · subst hkn2
      rw [addNode_getElem?_self] at hk
      obtain ⟨hs1, hs2⟩ := addNodeSets_spec hd v hv
      cases hk
      refine ⟨hv, ?_, ?_⟩
      · exact hs1
      · show ((addNodeSets d inputs).2).sort _ = _
        rw [hs2]
    · rw [List.getElem?_eq_none (by rw [addNode_nodes_length]; omega)] at hk
      exact absurd hk (by simp)

/-- Bool check that each op's inputs are below the index of the node it
creates, starting from a DAG that already has `n` nodes (the `add_node`
assertion along a build sequence). -/
def validFromB : ℕ → List (ℕ × List ℕ) → Bool
  | _, [] => true
  | n, op :: rest => op.2.all (fun i => decide (i < n)) && validFromB (n + 1) rest

/-- The `add_node` assertion holds along the whole build sequence. -/
def ValidFrom (n : ℕ) (ops : List (ℕ × List ℕ)) : Prop := validFromB n ops = true

instance (n : ℕ) (ops : List (ℕ × List ℕ)) : Decidable (ValidFrom n ops) :=
  inferInstanceAs (Decidable (validFromB n ops = true))

def foldDAG (d : DAG) (ops : List (ℕ × List ℕ)) : DAG :=
  ops.foldl (fun d op => d.addNode op.1 op.2) d

/-- A DAG built by a sequence of `add_node` calls `(value, inputs)` starting
from the empty DAG. -/
def buildDAG (ops : List (ℕ × List ℕ)) : DAG := foldDAG ⟨[]⟩ ops

theorem foldDAG_WFDag : ∀ (ops : List (ℕ × List ℕ)) (d : DAG), d.WFDag →
    ValidFrom d.nodes.length ops → (foldDAG d ops).WFDag := by
  intro ops
  induction ops with
  | nil =>
    intro d hd _
    exact hd
  | cons op rest ih =>
    intro d hd hv
    unfold ValidFrom validFromB at hv
    rw [Bool.and_eq_true, List.all_eq_true] at hv
    obtain ⟨h1, h2⟩ := hv
    have h1' : ∀ i ∈ op.2, i < d.nodes.length := fun i hi => of_decide_eq_true (h1 i hi)
    show (foldDAG (d.addNode op.1 op.2) rest).WFDag
    refine ih (d.addNode op.1 op.2) (addNode_WFDag hd h1') ?_
    unfold ValidFrom
    rw [addNode_nodes_length]
    exact h2

theorem buildDAG_WFDag (ops : List (ℕ × List ℕ)) (hv : ValidFrom 0 ops) :
    (buildDAG ops).WFDag :=
  foldDAG_WFDag ops ⟨[]⟩ (by intro k nd hk; simp at hk) hv

theorem WFDag_node_facts {d : DAG} (hd : d.WFDag) :
    ∀ k nd, d.nodes[k]? = some nd →
      (∀ i ∈ nd.inputs, i < k) ∧
      (nd.inputs = [] → nd.ancestors = ∅ ∧ nd.remainderAncestors = []) ∧
      nd.ancestors = ancSpec d.inputsOf k ∧
      (∀ i0 rest, nd.inputs = i0 :: rest →
        ∃ nd0, d.nodes[i0]? = some nd0 ∧
          i0 ∉ nd0.ancestors ∧
          Disjoint (insert i0 nd0.ancestors) nd.remainderAncestors.toFinset ∧
          insert i0 nd0.ancestors ∪ nd.remainderAncestors.toFinset = nd.ancestors) := by
  intro k nd hk
  obtain ⟨h1, h2, h3⟩ := hd k nd hk
  have hfk : d.inputsOf k = nd.inputs := inputsOf_eq d hk
  refine ⟨h1, ?_, h2, ?_⟩
  · intro hnil
    have hempty : ancSpec d.inputsOf k = ∅ := by
      rw [Finset.eq_empty_iff_forall_not_mem]
      intro x hx
      rcases mem_ancSpec.1 hx with ⟨j, ⟨hj, _⟩, _⟩
      rw [hfk, hnil] at hj
      exact absurd hj (List.not_mem_nil j)
    constructor
    · rw [h2, hempty]
    · rw [h3, hnil, hempty]
      show ((∅ \ (∅ : Finset ℕ)).sort (· ≤ ·)) = []
      rw [Finset.sdiff_empty]
      exact Finset.sort_empty _
  · intro i0 rest hcons
    have hi0k : i0 < k := h1 i0 (by rw [hcons]; exact List.mem_cons_self i0 rest)
    have hklen : k < d.nodes.length := by
      by_contra hcon
      rw [List.getElem?_eq_none (by omega)] at hk
      exact absurd hk (by simp)
    have hi0len : i0 < d.nodes.length := lt_trans hi0k hklen
    obtain ⟨nd0, hnd0⟩ : ∃ nd0, d.nodes[i0]? = some nd0 := by
      rw [List.getElem?_eq_getElem hi0len]
      exact ⟨_, rfl⟩
    have hnd0anc : nd0.ancestors = ancSpec d.inputsOf i0 := (hd i0 nd0 hnd0).2.1
    have hS0sub : insert i0 nd0.ancestors ⊆ ancSpec d.inputsOf k := by
      rw [hnd0anc]
      exact ancSpec_input_subset
        (by rw [hfk, hcons]; exact List.mem_cons_self i0 rest) hi0k
    have hremT : nd.remainderAncestors.toFinset
        = ancSpec d.inputsOf k \ insert i0 nd0.ancestors := by
      rw [h3, hcons]
      rw [Finset.sort_toFinset]
      show ancSpec d.inputsOf k \ insert i0 (ancSpec d.inputsOf i0) = _
      rw [hnd0anc]
    refine ⟨nd0, hnd0, ?_, ?_, ?_⟩
    · rw [hnd0anc]
      intro hcon
      exact absurd (ancSpec_lt i0 i0 hcon) (lt_irrefl i0)
    · rw [hremT]
      exact Finset.disjoint_sdiff
    · rw [hremT, h2]
      exact Finset.union_sdiff_of_subset hS0sub

theorem addNode_dedup_ancestors {d : DAG} (hd : d.WFDag) (v : ℕ) {inputs : List ℕ}
    (hv : ∀ i ∈ inputs, i < d.nodes.length) :
    ((d.addNode v inputs).nodes[d.nodes.length]?).map DAGNode.ancestors
      = ((d.addNode v inputs.dedup).nodes[d.nodes.length]?).map DAGNode.ancestors := by
  have hv2 : ∀ i ∈ inputs.dedup, i < d.nodes.length := fun i hi => hv i (List.mem_dedup.1 hi)
  rw [addNode_getElem?_self, addNode_getElem?_self]
  show some ((addNodeSets d inputs).1) = some ((addNodeSets d inputs.dedup).1)
  rw [(addNodeSets_spec hd v hv).1, (addNodeSets_spec hd v hv2).1]
  congr 1
  apply ancSpec_congr_toFinset
  intro j hj
  by_cases hjn : j = d.nodes.length
  · subst hjn
    rw [inputsOf_addNode_self, inputsOf_addNode_self]
    ext x
    simp [List.mem_toFinset, List.mem_dedup]
  · rw [inputsOf_addNode_ne hjn, inputsOf_addNode_ne hjn]

/-- **C8**: for every DAG built by a sequence of valid `add_node` calls, every
node's `ancestors` is the transitive closure of its inputs (all of which lie
strictly below the node, so the node itself is excluded); for a node with at
least one input the sets `{inputs[0]}`, `ancestors(inputs[0])` and
`remainder_ancestors` are pairwise disjoint with union `ancestors`; a node
with no inputs has empty `ancestors` and `remainder_ancestors`; and
deduplicating the inputs list does not change the ancestor set of the node
added. -/
theorem C8_dag_ancestors (ops : List (ℕ × List ℕ)) (hv : ValidFrom 0 ops) :
    (∀ k nd, (buildDAG ops).nodes[k]? = some nd →
      (∀ i ∈ nd.inputs, i < k) ∧
      (nd.inputs = [] → nd.ancestors = ∅ ∧ nd.remainderAncestors = []) ∧
      nd.ancestors = ancSpec (buildDAG ops).inputsOf k ∧
      (∀ i0 rest, nd.inputs = i0 :: rest →
        ∃ nd0, (buildDAG ops).nodes[i0]? = some nd0 ∧
          i0 ∉ nd0.ancestors ∧
          Disjoint (insert i0 nd0.ancestors) nd.remainderAncestors.toFinset ∧
          insert i0 nd0.ancestors ∪ nd.remainderAncestors.toFinset = nd.ancestors)) ∧
    (∀ v inputs, (∀ i ∈ inputs, i < (buildDAG ops).nodes.length) →
      (((buildDAG ops).addNode v inputs).nodes[(buildDAG ops).nodes.length]?).map
          DAGNode.ancestors
        = (((buildDAG ops).addNode v inputs.dedup).nodes[(buildDAG ops).nodes.length]?).map
          DAGNode.ancestors) := by
  have hwf : (buildDAG ops).WFDag := buildDAG_WFDag ops hv
  exact ⟨WFDag_node_facts hwf, fun v inputs hvi => addNode_dedup_ancestors hwf v hvi⟩

/-- Witness for C8 on the build sequence of the `remainder_ancestors` unit
test in dag.rs. -/
theorem C8_dag_ancestors_witness :
    ValidFrom 0 [(0, []), (1, [0]), (2, [1]), (3, [0]), (4, [3]), (5, [2, 4])] ∧
    ((∀ k nd,
        (buildDAG [(0, []), (1, [0]), (2, [1]), (3, [0]), (4, [3]),
          (5, [2, 4])]).nodes[k]? = some nd →
      (∀ i ∈ nd.inputs, i < k) ∧
      (nd.inputs = [] → nd.ancestors = ∅ ∧ nd.remainderAncestors = []) ∧
      nd.ancestors = ancSpec (buildDAG [(0, []), (1, [0]), (2, [1]), (3, [0]), (4, [3]),
          (5, [2, 4])]).inputsOf k ∧
      (∀ i0 rest, nd.inputs = i0 :: rest →
        ∃ nd0, (buildDAG [(0, []), (1, [0]), (2, [1]), (3, [0]), (4, [3]),
            (5, [2, 4])]).nodes[i0]? = some nd0 ∧
          i0 ∉ nd0.ancestors ∧
          Disjoint (insert i0 nd0.ancestors) nd.remainderAncestors.toFinset ∧
          insert i0 nd0.ancestors ∪ nd.remainderAncestors.toFinset = nd.ancestors)) ∧
    (∀ v inputs,
      (∀ i ∈ inputs, i < (buildDAG [(0, []), (1, [0]), (2, [1]), (3, [0]), (4, [3]),
          (5, [2, 4])]).nodes.length) →
      (((buildDAG [(0, []), (1, [0]), (2, [1]), (3, [0]), (4, [3]),
          (5, [2, 4])]).addNode v inputs).nodes[(buildDAG [(0, []), (1, [0]), (2, [1]),
          (3, [0]), (4, [3]), (5, [2, 4])]).nodes.length]?).map DAGNode.ancestors
        = (((buildDAG [(0, []), (1, [0]), (2, [1]), (3, [0]), (4, [3]),
          (5, [2, 4])]).addNode v inputs.dedup).nodes[(buildDAG [(0, []), (1, [0]),
          (2, [1]), (3, [0]), (4, [3]), (5, [2, 4])]).nodes.length]?).map
          DAGNode.ancestors)) :=
  ⟨by decide,
    C8_dag_ancestors [(0, []), (1, [0]), (2, [1]), (3, [0]), (4, [3]), (5, [2, 4])]
      (by decide)⟩

/-! ### CompressedDAGFlakinessTracker (compressed_dag_flakiness_tracker.rs)

The `BTreeMap<usize, FlakinessTracker>` of per-segment vote trackers is an
association list sorted by segment, iterated in ascending-key order; a
`CompressedDAGNodeRef` is passed as the pair (segment, index). -/

structure CompressedDAGFlakinessTracker where
  graph : DAG
  votes : List (ℕ × FlakinessTracker)
deriving DecidableEq

/-- `CompressedDAGFlakinessTracker::new`. -/
def CompressedDAGFlakinessTracker.new (g : DAG) : CompressedDAGFlakinessTracker :=
  ⟨g, []⟩

/-- `self.votes.entry(node.segment).or_insert_with(default).report(node.index,
heads)`, preserving ascending key order. -/
def updateSegVotes (segment idx : ℕ) (heads : Bool) :
    List (ℕ × FlakinessTracker) → List (ℕ × FlakinessTracker)
  | [] => [(segment, FlakinessTracker.empty.report idx heads)]
  | (s, t) :: rest =>
    if segment = s then (s, t.report idx heads) :: rest
    else if segment < s then
      (segment, FlakinessTracker.empty.report idx heads) :: (s, t) :: rest
    else (s, t) :: updateSegVotes segment idx heads rest

/-- `CompressedDAGFlakinessTracker::report` (lines 41-46). -/
def CompressedDAGFlakinessTracker.report (tr : CompressedDAGFlakinessTracker)
    (segment idx : ℕ) (heads : Bool) : CompressedDAGFlakinessTracker :=
  ⟨tr.graph, updateSegVotes segment idx heads tr.votes⟩

/-- `self.votes.get(&x).map(|v| (v.total_heads(), v.total_votes())).unwrap_or((0, 0))`. -/
def segTotals (votes : List (ℕ × FlakinessTracker)) (x : ℕ) : ℕ × ℕ :=
  match votes.lookup x with
  | some t => (t.totalHeads, t.totalHeads + t.totalTails)
  | none => (0, 0)

/-- `graph.node(s).remainder_ancestors()` (empty when out of range). -/
def remAncOf (g : DAG) (s : ℕ) : List ℕ :=
  ((g.nodes[s]?).map DAGNode.remainderAncestors).getD []

/-- First loop of `CompressedDAGFlakinessTracker::inversions`
(compressed_dag_flakiness_tracker.rs 53-77): for each voted segment with
nonempty inputs, in ascending key order, memoize the pair previously recorded
for the first input (or `(0,0)`), plus the first input's own totals, plus the
totals over the segment's remainder ancestors. -/
def votesAtMap (g : DAG) (votes : List (ℕ × FlakinessTracker)) :
    List (ℕ × (ℕ × ℕ)) :=
  votes.foldl
    (fun acc p =>
      match g.inputsOf p.1 with
      | [] => acc
      | i0 :: _ =>
        let it := segTotals votes i0
        let base := (acc.lookup i0).getD (0, 0)
        let agg := (remAncOf g p.1).foldl
          (fun hv a => (hv.1 + (segTotals votes a).1, hv.2 + (segTotals votes a).2))
          (base.1 + it.1, base.2 + it.2)
        acc ++ [(p.1, agg)])
    []

/-- Second loop and result of `CompressedDAGFlakinessTracker::inversions`
(lines 78-86). -/
def CompressedDAGFlakinessTracker.inversions
    (tr : CompressedDAGFlakinessTracker) : ℕ × ℕ :=
  let va := votesAtMap tr.graph tr.votes
  tr.votes.foldl
    (fun acc p =>
      let sv := (va.lookup p.1).getD (0, 0)
      let iv := p.2.inversions
      (acc.1 + p.2.totalTails * sv.1 + iv.1,
       acc.2 + (p.2.totalHeads + p.2.totalTails) * sv.2 + iv.2))
    (0, 0)

/-- `CompressedDAGFlakinessTracker::flakiness` (lines 91-96):
`tmp = 1 - (inv + 1)/(rand_inv/4 + 4/3)`, result `1 - sqrt(max(tmp, 0))`.
The square root forces the model into `ℝ`. -/
noncomputable def CompressedDAGFlakinessTracker.flakiness
    (tr : CompressedDAGFlakinessTracker) : ℝ :=
  let p := tr.inversions
  1 - Real.sqrt (max 0 (1 - ((p.1 : ℝ) + 1) / ((p.2 : ℝ) / 4 + 4 / 3)))

/-- The aggregate the spec describes: heads and vote totals summed over ALL
strict ancestor segments of `s`, read off the stored ancestor sets. Spec-side
definition, for comparison with the incremental `votesAtMap` memo. -/
def votesAtSpec (g : DAG) (votes : List (ℕ × FlakinessTracker)) (s : ℕ) :
    ℕ × ℕ :=
  let anc := ((g.nodes[s]?).map DAGNode.ancestors).getD ∅
  (anc.sum (fun a => (segTotals votes a).1), anc.sum (fun a => (segTotals votes a).2))

/-- `inversions` with the memo replaced by the full-ancestor aggregate the
spec describes. Spec-side definition. -/
def dagInversionsSpec (tr : CompressedDAGFlakinessTracker) : ℕ × ℕ :=
  tr.votes.foldl
    (fun acc p =>
      let sv := votesAtSpec tr.graph tr.votes p.1
      let iv := p.2.inversions
      (acc.1 + p.2.totalTails * sv.1 + iv.1,
       acc.2 + (p.2.totalHeads + p.2.totalTails) * sv.2 + iv.2))
    (0, 0)


/-- A tracker with no reported votes has inversion totals `(0, 0)` and DAG
flakiness exactly `1/2 = 1 - sqrt(1 - 3/4)`, for any graph. -/
theorem emptyDag_flakiness_half (g : DAG) :
    (CompressedDAGFlakinessTracker.new g).flakiness = 1 / 2 := by
  rw [show (CompressedDAGFlakinessTracker.new g).flakiness
      = 1 - Real.sqrt (max 0 (1 - (((0 : ℕ) : ℝ) + 1) / (((0 : ℕ) : ℝ) / 4 + 4 / 3)))
      from rfl]
  simp only [Nat.cast_zero]
  rw [show (1 : ℝ) - ((0 : ℝ) + 1) / ((0 : ℝ) / 4 + 4 / 3) = 1/4 by norm_num]
  rw [max_eq_right (by norm_num : (0:ℝ) ≤ 1/4)]
  rw [show (1/4 : ℝ) = (1/2)^2 by norm_num]
  rw [Real.sqrt_sq (by norm_num : (0:ℝ) ≤ 1/2)]
  norm_num

/-- **C6** (amended): `CompressedDAGFlakinessTracker::flakiness` is the
square-root form `1 - sqrt(max(0, 1 - (I+1)/(R/4 + 4/3)))` over its own
inversion totals `(I, R)` (not the linear tracker's polynomial closed form),
its value always lies in `[0, 1]`, and a tracker with no reported votes
returns exactly `1/2` for every graph. -/
theorem C6_dag_flakiness (tr : CompressedDAGFlakinessTracker) (g : DAG) :
    tr.flakiness
      = 1 - Real.sqrt (max 0 (1 - ((tr.inversions.1 : ℝ) + 1)
          / ((tr.inversions.2 : ℝ) / 4 + 4 / 3))) ∧
    0 ≤ tr.flakiness ∧ tr.flakiness ≤ 1 ∧
    (CompressedDAGFlakinessTracker.new g).flakiness = 1 / 2 := by
  have hx : (0:ℝ) ≤ ((tr.inversions.1 : ℝ) + 1)
      / ((tr.inversions.2 : ℝ) / 4 + 4 / 3) := by positivity
  have hm1 : max 0 (1 - ((tr.inversions.1 : ℝ) + 1)
      / ((tr.inversions.2 : ℝ) / 4 + 4 / 3)) ≤ 1 :=
    max_le (by norm_num) (by linarith)
  have hs0 : 0 ≤ Real.sqrt (max 0 (1 - ((tr.inversions.1 : ℝ) + 1)
      / ((tr.inversions.2 : ℝ) / 4 + 4 / 3))) := Real.sqrt_nonneg _
  have hs1 : Real.sqrt (max 0 (1 - ((tr.inversions.1 : ℝ) + 1)
      / ((tr.inversions.2 : ℝ) / 4 + 4 / 3))) ≤ 1 := Real.sqrt_le_one.2 hm1
  refine ⟨rfl, ?_, ?_, emptyDag_flakiness_half g⟩
  · rw [show tr.flakiness = 1 - Real.sqrt (max 0 (1 - ((tr.inversions.1 : ℝ) + 1)
        / ((tr.inversions.2 : ℝ) / 4 + 4 / 3))) from rfl]
    linarith
  · rw [show tr.flakiness = 1 - Real.sqrt (max 0 (1 - ((tr.inversions.1 : ℝ) + 1)
        / ((tr.inversions.2 : ℝ) / 4 + 4 / 3))) from rfl]
    linarith

/-- C6 counterexample: a voteless tracker has the same inversion totals
`(0, 0)` as the empty linear tracker, yet the DAG flakiness is exactly `1/2`
while the linear closed form gives `2898535692/5797756449 ≠ 1/2`: the two
flakiness functions differ, and the linear form does not return 0.5. -/
theorem C6_counterexample :
    (CompressedDAGFlakinessTracker.new (buildDAG [(10, [])])).inversions = (0, 0) ∧
    FlakinessTracker.empty.inversions = (0, 0) ∧
    (CompressedDAGFlakinessTracker.new (buildDAG [(10, [])])).flakiness = 1 / 2 ∧
    ((FlakinessTracker.empty.flakiness : ℚ) : ℝ)
      ≠ (CompressedDAGFlakinessTracker.new (buildDAG [(10, [])])).flakiness := by
  refine ⟨rfl, rfl, emptyDag_flakiness_half _, ?_⟩
  rw [emptyDag_flakiness_half, empty_flakiness_value]
  push_cast
  norm_num

/-- **C7** (code bug): on the chain graph 0 → 1 → 2 with one heads vote in
segment 0 and one tails vote in segment 2, `inversions()` returns `(0, 2)`:
the `votes_at_segment` memo is keyed only by voted segments, so the lookup at
segment 2's first input (segment 1, which has no votes) returns `(0, 0)` and
the heads vote of the ancestor segment 0 is dropped. Aggregating over ALL
strict ancestor segments as the spec describes yields `(1, 3)`. -/
theorem C7_dag_inversions_bug :
    (((CompressedDAGFlakinessTracker.new
        (buildDAG [(10, []), (10, [0]), (10, [1])])).report 0 0 true).report
        2 0 false).inversions = (0, 2) ∧
    dagInversionsSpec (((CompressedDAGFlakinessTracker.new
        (buildDAG [(10, []), (10, [0]), (10, [1])])).report 0 0 true).report
        2 0 false) = (1, 3) := by
  have ha1 : (addNodeSets (⟨[]⟩ : DAG) []).1 = ∅ := rfl
  have hb1 : ((addNodeSets (⟨[]⟩ : DAG) []).2).sort (· ≤ ·) = [] :=
    Finset.sort_empty _
  have hd1 : (⟨[]⟩ : DAG).addNode 10 [] = ⟨[⟨10, [], ∅, []⟩]⟩ := by
    unfold DAG.addNode
    rw [ha1, hb1]
    rfl
  have hs2 : addNodeSets (⟨[⟨10, [], ∅, []⟩]⟩ : DAG) [0]
      = (⟨[⟨10, [], ∅, []⟩]⟩ : DAG).dfs [] {0} ∅ := rfl
  have hs2' : addNodeSets (⟨[⟨10, [], ∅, []⟩]⟩ : DAG) [0] = ({0}, ∅) := by
    rw [hs2, dfs_nil]
  have ha2 : (addNodeSets (⟨[⟨10, [], ∅, []⟩]⟩ : DAG) [0]).1 = {0} := by
    rw [hs2']
  have hb2 : ((addNodeSets (⟨[⟨10, [], ∅, []⟩]⟩ : DAG) [0]).2).sort (· ≤ ·) = [] := by
    rw [hs2']
    exact Finset.sort_empty _
  have hd2 : (⟨[⟨10, [], ∅, []⟩]⟩ : DAG).addNode 10 [0]
      = ⟨[⟨10, [], ∅, []⟩, ⟨10, [0], {0}, []⟩]⟩ := by
    unfold DAG.addNode
    rw [ha2, hb2]
    rfl
  have hs3 : addNodeSets (⟨[⟨10, [], ∅, []⟩, ⟨10, [0], {0}, []⟩]⟩ : DAG) [1]
      = (⟨[⟨10, [], ∅, []⟩, ⟨10, [0], {0}, []⟩]⟩ : DAG).dfs [] {1, 0} ∅ := rfl
  have hs3' : addNodeSets (⟨[⟨10, [], ∅, []⟩, ⟨10, [0], {0}, []⟩]⟩ : DAG) [1]
      = ({1, 0}, ∅) := by
    rw [hs3, dfs_nil]
  have ha3 : (addNodeSets (⟨[⟨10, [], ∅, []⟩, ⟨10, [0], {0}, []⟩]⟩ : DAG) [1]).1
      = {1, 0} := by
    rw [hs3']
  have hb3 : ((addNodeSets (⟨[⟨10, [], ∅, []⟩, ⟨10, [0], {0}, []⟩]⟩ : DAG)
      [1]).2).sort (· ≤ ·) = [] := by
    rw [hs3']
    exact Finset.sort_empty _
  have hd3 : (⟨[⟨10, [], ∅, []⟩, ⟨10, [0], {0}, []⟩]⟩ : DAG).addNode 10 [1]
      = ⟨[⟨10, [], ∅, []⟩, ⟨10, [0], {0}, []⟩, ⟨10, [1], {1, 0}, []⟩]⟩ := by
    unfold DAG.addNode
    rw [ha3, hb3]
    rfl
  have hbuild : buildDAG [(10, []), (10, [0]), (10, [1])]
      = ⟨[⟨10, [], ∅, []⟩, ⟨10, [0], {0}, []⟩, ⟨10, [1], {1, 0}, []⟩]⟩ := by
    show (((⟨[]⟩ : DAG).addNode 10 []).addNode 10 [0]).addNode 10 [1] = _
    rw [hd1, hd2, hd3]
  rw [hbuild]
  refine ⟨by decide, by decide⟩

/-! ### CompressedDAGSearcher (lib.rs 317-511): mass conservation (claim C3) -/

structure CompressedDAGSearcher where
  graph : DAG
  segmentRangeMaps : List (RangeMap ℚ)
deriving DecidableEq

/-- `CompressedDAGSearcher::new` (lib.rs 325-340): one uniform map per
segment with value `1/n`, where `n` is the total number of conceptual
nodes (sum of segment sizes). -/
def CompressedDAGSearcher.new (g : DAG) : CompressedDAGSearcher :=
  ⟨g, g.nodes.map (fun nd =>
    RangeMap.new nd.value (1 / ((g.nodes.map DAGNode.value).sum : ℚ)))⟩

/-- `graph.node(s).ancestors()`, empty when out of range. -/
def ancestorsOf (g : DAG) (s : ℕ) : Finset ℕ :=
  ((g.nodes[s]?).map DAGNode.ancestors).getD ∅

/-- Indexed map over the segment maps, modelling the indexed scaling loops of
`CompressedDAGSearcher::report`. -/
def mapSegs (f : ℕ → RangeMap ℚ → RangeMap ℚ) : ℕ → List (RangeMap ℚ) → List (RangeMap ℚ)
  | _, [] => []
  | i, m :: rest => f i m :: mapSegs f (i + 1) rest

/-- `*w.value_mut() /= c` over a whole entry list (the final normalization of
`CompressedDAGSearcher::report`, lib.rs 489-494). -/
def divEntries (c : ℚ) (l : List (RangeMapEntry ℚ)) : List (RangeMapEntry ℚ) :=
  l.map (fun e => ⟨e.offset, e.len, e.value / c⟩)

/-- `weight_sum` (lib.rs 479-488): total mass over all segment maps. -/
def CompressedDAGSearcher.totalMass (c : CompressedDAGSearcher) : ℚ :=
  (c.segmentRangeMaps.map (fun m => massList m.values)).sum

/-- `CompressedDAGSearcher::report` (lib.rs 458-499), with the stiffness a
parameter (the source computes `optimal_stiffness(flakiness)`): if heads,
scale every map of an ancestor segment by `1 + stiffness`; if tails, scale
every map of a non-ancestor segment other than the reported one; apply
`report_range` to the reported segment's map; then divide every entry value
everywhere by the total weight. -/
def CompressedDAGSearcher.report (c : CompressedDAGSearcher) (segment idx : ℕ)
    (heads : Bool) (stiffness : ℚ) : CompressedDAGSearcher :=
  let anc := ancestorsOf c.graph segment
  let maps1 : List (RangeMap ℚ) :=
    if heads then
      mapSegs (fun i m =>
        if i ∈ anc then ⟨scaleEntries (1 + stiffness) m.values⟩ else m) 0
        c.segmentRangeMaps
    else
      mapSegs (fun i m =>
        if i ∈ anc ∨ i = segment then m
        else ⟨scaleEntries (1 + stiffness) m.values⟩) 0 c.segmentRangeMaps
  let maps2 := mapSegs (fun i m =>
    if i = segment then reportRange m idx heads stiffness else m) 0 maps1
  let total := (maps2.map (fun m => massList m.values)).sum
  ⟨c.graph, maps2.map (fun m => ⟨divEntries total m.values⟩)⟩

theorem length_mapSegs (f : ℕ → RangeMap ℚ → RangeMap ℚ) :
    ∀ (i : ℕ) (l : List (RangeMap ℚ)), (mapSegs f i l).length = l.length
  | _, [] => rfl
  | i, m :: rest => by
    simp only [mapSegs, List.length_cons, length_mapSegs f (i + 1) rest]

theorem getElem?_mapSegs (f : ℕ → RangeMap ℚ → RangeMap ℚ) :
    ∀ (i : ℕ) (l : List (RangeMap ℚ)) (j : ℕ),
      (mapSegs f i l)[j]? = (l[j]?).map (f (i + j))
  | _, [], j => by simp [mapSegs]
  | i, m :: rest, 0 => by simp [mapSegs]
  | i, m :: rest, j + 1 => by
    simp only [mapSegs, List.getElem?_cons_succ]
    rw [getElem?_mapSegs f (i + 1) rest j]
    have hj : i + 1 + j = i + (j + 1) := by omega
    rw [hj]

theorem expand_divEntries (c : ℚ) (l : List (RangeMapEntry ℚ)) :
    expandList (divEntries c l) = (expandList l).map (fun x => x / c) := by
  induction l with
  | nil => rfl
  | cons e rest ih =>
      simp [divEntries, expandList, RangeMapEntry.expandE, List.map_replicate] at ih ⊢
      exact ih

theorem chain_divEntries {off size : ℕ} (c : ℚ) {l : List (RangeMapEntry ℚ)}
    (h : chainFrom off size l) : chainFrom off size (divEntries c l) := by
  induction l generalizing off with
  | nil => exact h
  | cons e rest ih =>
      obtain ⟨h1, h2, h3⟩ := h
      exact ⟨h1, h2, ih h3⟩

theorem massList_divEntries (c : ℚ) (l : List (RangeMapEntry ℚ)) :
    massList (divEntries c l) = massList l / c := by
  rw [massList_eq_sum_expand, expand_divEntries, sum_map_div, ← massList_eq_sum_expand]

theorem massList_pos {size : ℕ} {l : List (RangeMapEntry ℚ)} (h : chainFrom 0 size l)
    (hpos : ∀ x ∈ expandList l, 0 < x) (hsz : 0 < size) : 0 < massList l := by
  rw [massList_eq_sum_expand]
  refine sum_pos_of_pos ?_ hpos
  intro hcon
  have hlen := length_expandList h
  rw [hcon] at hlen
  simp at hlen
  omega

theorem reportRange_pos {size index : ℕ} {m : RangeMap ℚ} (heads : Bool) {st : ℚ}
    (hst : 0 ≤ st) (h : chainFrom 0 size m.values)
    (hpos : ∀ x ∈ expandList m.values, 0 < x) (hix : index + 1 ≤ size) :
    ∀ x ∈ expandList (reportRange m index heads st).values, 0 < x := by
  have hc : (0 : ℚ) < 1 + st := by linarith
  have hspec := reportRange_spec heads st h hix
  intro x hx
  rw [hspec.2] at hx
  cases heads with
  | true =>
      simp only [if_pos rfl] at hx
      rcases List.mem_append.mp hx with hx | hx
      · obtain ⟨y, hy, hyx⟩ := List.mem_map.mp hx
        have := hpos y (List.take_subset _ _ hy)
        rw [← hyx]
        positivity
      · exact hpos x (List.drop_subset _ _ hx)
  | false =>
      simp only [Bool.false_eq_true, if_neg (by simp : ¬ (false = true))] at hx
      rcases List.mem_append.mp hx with hx | hx
      · exact hpos x (List.take_subset _ _ hx)
      · obtain ⟨y, hy, hyx⟩ := List.mem_map.mp hx
        have := hpos y (List.drop_subset _ _ hy)
        rw [← hyx]
        positivity

/-- Invariant tying the segment maps to the graph: same count, each map
well-formed over its segment's size, with positive weights. -/
def SegMapsOK (g : DAG) (maps : List (RangeMap ℚ)) : Prop :=
  maps.length = g.nodes.length ∧
  ∀ (i : ℕ) (m : RangeMap ℚ) (nd : DAGNode), maps[i]? = some m → g.nodes[i]? = some nd →
    m.WF nd.value ∧ (∀ x ∈ expandList m.values, 0 < x)

theorem segMapsOK_upd {g : DAG} {maps : List (RangeMap ℚ)} (hok : SegMapsOK g maps)
    {st : ℚ} (hst : 0 ≤ st) (upd : ℕ → RangeMap ℚ → RangeMap ℚ)
    (hupd : ∀ i m, upd i m = m ∨ upd i m = ⟨scaleEntries (1 + st) m.values⟩) :
    SegMapsOK g (mapSegs upd 0 maps) := by
  obtain ⟨hlen, hmaps⟩ := hok
  have hc : (0 : ℚ) < 1 + st := by linarith
  refine ⟨by rw [length_mapSegs]; exact hlen, ?_⟩
  intro i m' nd hm' hnd
  rw [getElem?_mapSegs] at hm'
  obtain ⟨m, hm, hmm⟩ := Option.map_eq_some'.1 hm'
  obtain ⟨hwf, hpos⟩ := hmaps i m nd hm hnd
  rcases hupd (0 + i) m with he | he
  · rw [he] at hmm
    rw [← hmm]
    exact ⟨hwf, hpos⟩
  · rw [he] at hmm
    rw [← hmm]
    refine ⟨chain_scaleEntries (1 + st) hwf, ?_⟩
    intro x hx
    rw [show ((⟨scaleEntries (1 + st) m.values⟩ : RangeMap ℚ)).values
        = scaleEntries (1 + st) m.values from rfl, expand_scaleEntries] at hx
    obtain ⟨y, hy, hyx⟩ := List.mem_map.1 hx
    rw [← hyx]
    exact mul_pos (hpos y hy) hc

theorem segMapsOK_rr {g : DAG} {maps : List (RangeMap ℚ)} (hok : SegMapsOK g maps)
    {segment idx : ℕ} {ndseg : DAGNode} (hndseg : g.nodes[segment]? = some ndseg)
    (hidx : idx + 1 ≤ ndseg.value) (heads : Bool) {st : ℚ} (hst : 0 ≤ st) :
    SegMapsOK g (mapSegs
      (fun i m => if i = segment then reportRange m idx heads st else m) 0 maps) := by
  obtain ⟨hlen, hmaps⟩ := hok
  refine ⟨by rw [length_mapSegs]; exact hlen, ?_⟩
  intro i m' nd hm' hnd
  rw [getElem?_mapSegs] at hm'
  obtain ⟨m, hm, hmm⟩ := Option.map_eq_some'.1 hm'
  obtain ⟨hwf, hpos⟩ := hmaps i m nd hm hnd
  have hmm' : (if 0 + i = segment then reportRange m idx heads st else m) = m' := hmm
  by_cases hiseg : 0 + i = segment
  · rw [if_pos hiseg] at hmm'
    have hii : i = segment := by omega
    rw [hii, hndseg] at hnd
    obtain rfl : ndseg = nd := Option.some.inj hnd
    rw [← hmm']
    exact ⟨(reportRange_spec heads st hwf hidx).1,
      reportRange_pos heads hst hwf hpos hidx⟩
  · rw [if_neg hiseg] at hmm'
    rw [← hmm']
    exact ⟨hwf, hpos⟩

theorem segMapsOK_div {g : DAG} {maps : List (RangeMap ℚ)} (hok : SegMapsOK g maps)
    (hsizes : ∀ nd ∈ g.nodes, 0 < nd.value) (hne : g.nodes ≠ [])
    {T : ℚ} (hT : T = (maps.map (fun m => massList m.values)).sum) :
    SegMapsOK g (maps.map (fun m => ⟨divEntries T m.values⟩)) ∧
    ((maps.map (fun m => (⟨divEntries T m.values⟩ : RangeMap ℚ))).map
      (fun m => massList m.values)).sum = 1 := by
  obtain ⟨hlen, hmaps⟩ := hok
  have hmassPos : ∀ m ∈ maps, 0 < massList m.values := by
    intro m hm
    obtain ⟨i, hi⟩ := List.mem_iff_getElem?.1 hm
    have hilen : i < maps.length := by
      by_contra hcon
      rw [List.getElem?_eq_none (by omega)] at hi
      cases hi
    obtain ⟨nd, hnd⟩ : ∃ nd, g.nodes[i]? = some nd := by
      rw [List.getElem?_eq_getElem (by omega : i < g.nodes.length)]
      exact ⟨_, rfl⟩
    obtain ⟨hwf, hpos⟩ := hmaps i m nd hi hnd
    exact massList_pos hwf hpos (hsizes nd (List.mem_iff_getElem?.2 ⟨i, hnd⟩))
  have hTpos : 0 < T := by
    rw [hT]
    refine sum_pos_of_pos ?_ ?_
    · intro hcon
      rw [List.map_eq_nil_iff] at hcon
      rw [hcon] at hlen
      exact hne (List.length_eq_zero.1 hlen.symm)
    · intro x hx
      obtain ⟨m, hm, hxm⟩ := List.mem_map.1 hx
      rw [← hxm]
      exact hmassPos m hm
  constructor
  · refine ⟨by rw [List.length_map]; exact hlen, ?_⟩
    intro i m' nd hm' hnd
    rw [List.getElem?_map] at hm'
    obtain ⟨m, hm, hmm⟩ := Option.map_eq_some'.1 hm'
    obtain ⟨hwf, hpos⟩ := hmaps i m nd hm hnd
    rw [← hmm]
    refine ⟨chain_divEntries T hwf, ?_⟩
    intro x hx
    rw [show ((⟨divEntries T m.values⟩ : RangeMap ℚ)).values
        = divEntries T m.values from rfl, expand_divEntries] at hx
    obtain ⟨y, hy, hyx⟩ := List.mem_map.1 hx
    rw [← hyx]
    exact div_pos (hpos y hy) hTpos
  · have h1 : (maps.map (fun m => (⟨divEntries T m.values⟩ : RangeMap ℚ))).map
        (fun m => massList m.values)
        = maps.map (fun m => massList m.values / T) := by
      rw [List.map_map]
      refine List.map_congr_left ?_
      intro m _
      show massList (divEntries T m.values) = massList m.values / T
      exact massList_divEntries T m.values
    have h2 : maps.map (fun m => massList m.values / T)
        = (maps.map (fun m => massList m.values)).map (fun x => x / T) := by
      rw [List.map_map]
      rfl
    rw [h1, h2, sum_map_div, ← hT]
    exact div_self (ne_of_gt hTpos)

theorem dagReport_step {c : CompressedDAGSearcher}
    (hok : SegMapsOK c.graph c.segmentRangeMaps)
    (hsizes : ∀ nd ∈ c.graph.nodes, 0 < nd.value)
    (hne : c.graph.nodes ≠ [])
    {segment idx : ℕ}
    (hseg : idx + 1 ≤ ((c.graph.nodes[segment]?).map DAGNode.value).getD 0)
    (heads : Bool) {st : ℚ} (hst : 0 ≤ st) :
    (c.report segment idx heads st).graph = c.graph ∧
    SegMapsOK c.graph (c.report segment idx heads st).segmentRangeMaps ∧
    (c.report segment idx heads st).totalMass = 1 := by
  obtain ⟨ndseg, hndseg⟩ : ∃ nd, c.graph.nodes[segment]? = some nd := by
    cases hx : c.graph.nodes[segment]? with
    | none =>
      rw [hx] at hseg
      simp at hseg
    | some nd => exact ⟨nd, rfl⟩
  have hidx : idx + 1 ≤ ndseg.value := by
    rw [hndseg] at hseg
    simpa using hseg
  cases heads with
  | true =>
    have h1 := segMapsOK_upd hok hst
      (fun i m => if i ∈ ancestorsOf c.graph segment
        then ⟨scaleEntries (1 + st) m.values⟩ else m)
      (fun i m => by
        by_cases hmem : i ∈ ancestorsOf c.graph segment
        · exact Or.inr (if_pos hmem)
        · exact Or.inl (if_neg hmem))
    have h2 := segMapsOK_rr h1 hndseg hidx true hst
    have h3 := segMapsOK_div h2 hsizes hne rfl
    exact ⟨rfl, h3.1, h3.2⟩
  | false =>
    have h1 := segMapsOK_upd hok hst
      (fun i m => if i ∈ ancestorsOf c.graph segment ∨ i = segment then m
        else ⟨scaleEntries (1 + st) m.values⟩)
      (fun i m => by
        by_cases hmem : i ∈ ancestorsOf c.graph segment ∨ i = segment
        · exact Or.inl (if_pos hmem)
        · exact Or.inr (if_neg hmem))
    have h2 := segMapsOK_rr h1 hndseg hidx false hst
    have h3 := segMapsOK_div h2 hsizes hne rfl
    exact ⟨rfl, h3.1, h3.2⟩

theorem natCast_list_sum (l : List ℕ) :
    ((l.sum : ℕ) : ℚ) = (l.map (fun x : ℕ => (x : ℚ))).sum := by
  induction l with
  | nil => simp
  | cons x rest ih => simp [ih]

theorem dagNew_invariant (g : DAG) (hgpos : ∀ nd ∈ g.nodes, 0 < nd.value)
    (hne : g.nodes ≠ []) :
    (CompressedDAGSearcher.new g).graph = g ∧
    SegMapsOK g (CompressedDAGSearcher.new g).segmentRangeMaps ∧
    (CompressedDAGSearcher.new g).totalMass = 1 := by
  have hn : 0 < (g.nodes.map DAGNode.value).sum := by
    cases hns : g.nodes with
    | nil => exact absurd hns hne
    | cons nd rest =>
      have hv := hgpos nd (by rw [hns]; exact List.mem_cons_self nd rest)
      simp only [hns, List.map_cons, List.sum_cons]
      omega
  have hnQ : (0 : ℚ) < ((g.nodes.map DAGNode.value).sum : ℚ) := by exact_mod_cast hn
  refine ⟨rfl, ⟨by simp [CompressedDAGSearcher.new], ?_⟩, ?_⟩
  · intro i m nd hm hnd
    have hm2 : (g.nodes.map (fun nd =>
        RangeMap.new nd.value (1 / ((g.nodes.map DAGNode.value).sum : ℚ))))[i]?
        = some m := hm
    rw [List.getElem?_map, hnd] at hm2
    have hm' : m = RangeMap.new nd.value (1 / ((g.nodes.map DAGNode.value).sum : ℚ)) :=
      (Option.some.inj hm2).symm
    subst hm'
    refine ⟨WF_new _ _ (hgpos nd (List.mem_iff_getElem?.2 ⟨i, hnd⟩)), ?_⟩
    intro x hx
    simp only [RangeMap.new, expandList, RangeMapEntry.expandE, List.append_nil] at hx
    rw [List.eq_of_mem_replicate hx]
    positivity
  · show ((g.nodes.map (fun nd =>
        RangeMap.new nd.value (1 / ((g.nodes.map DAGNode.value).sum : ℚ)))).map
        (fun m => massList m.values)).sum = 1
    rw [List.map_map]
    rw [List.map_congr_left (g := fun nd : DAGNode =>
        (1 / ((g.nodes.map DAGNode.value).sum : ℚ)) * (nd.value : ℚ)) ?_]
    · rw [List.sum_map_mul_left]
      rw [show (g.nodes.map fun nd : DAGNode => ((nd.value : ℕ) : ℚ))
          = (g.nodes.map DAGNode.value).map (fun x : ℕ => (x : ℚ)) from by
        rw [List.map_map]; rfl]
      rw [← natCast_list_sum, one_div, inv_mul_cancel₀ (ne_of_gt hnQ)]
    · intro nd _
      show massList (RangeMap.new nd.value (1 / ((g.nodes.map DAGNode.value).sum : ℚ))).values
          = (1 / ((g.nodes.map DAGNode.value).sum : ℚ)) * (nd.value : ℚ)
      simp [RangeMap.new, massList]

/-- Running a sequence of `CompressedDAGSearcher::report(segment, index,
heads, stiffness)` calls. -/
def runDagReports (c : CompressedDAGSearcher) (ops : List (ℕ × ℕ × Bool × ℚ)) :
    CompressedDAGSearcher :=
  ops.foldl (fun acc op => acc.report op.1 op.2.1 op.2.2.1 op.2.2.2) c

theorem runDagReports_invariant (g : DAG) (hgpos : ∀ nd ∈ g.nodes, 0 < nd.value)
    (hgne : g.nodes ≠ []) (dops : List (ℕ × ℕ × Bool × ℚ))
    (hdval : ∀ op ∈ dops,
      op.2.1 + 1 ≤ ((g.nodes[op.1]?).map DAGNode.value).getD 0 ∧ 0 ≤ op.2.2.2) :
    (runDagReports (CompressedDAGSearcher.new g) dops).graph = g ∧
    SegMapsOK g (runDagReports (CompressedDAGSearcher.new g) dops).segmentRangeMaps ∧
    (runDagReports (CompressedDAGSearcher.new g) dops).totalMass = 1 := by
  unfold runDagReports
  suffices hgen : ∀ c : CompressedDAGSearcher, c.graph = g →
      SegMapsOK g c.segmentRangeMaps → c.totalMass = 1 →
      (∀ op ∈ dops,
        op.2.1 + 1 ≤ ((g.nodes[op.1]?).map DAGNode.value).getD 0 ∧ 0 ≤ op.2.2.2) →
      ((dops.foldl (fun acc op => acc.report op.1 op.2.1 op.2.2.1 op.2.2.2) c).graph = g ∧
        SegMapsOK g
          (dops.foldl (fun acc op => acc.report op.1 op.2.1 op.2.2.1 op.2.2.2)
            c).segmentRangeMaps ∧
        (dops.foldl (fun acc op => acc.report op.1 op.2.1 op.2.2.1 op.2.2.2)
          c).totalMass = 1) by
    obtain ⟨a, b, d⟩ := dagNew_invariant g hgpos hgne
    exact hgen _ a b d hdval
  clear hdval
  induction dops with
  | nil =>
    intro c h1 h2 h3 _
    exact ⟨h1, h2, h3⟩
  | cons op rest ih =>
    intro c h1 h2 _ hval
    have hop := hval op (List.mem_cons_self op rest)
    have hok : SegMapsOK c.graph c.segmentRangeMaps := by rw [h1]; exact h2
    have hstep := dagReport_step hok (by rw [h1]; exact hgpos) (by rw [h1]; exact hgne)
      (by rw [h1]; exact hop.1) op.2.2.1 hop.2
    refine ih _ (hstep.1.trans h1) ?_ hstep.2.2
      (fun o ho => hval o (List.mem_cons_of_mem op ho))
    have := hstep.2.1
    rw [h1] at this
    exact this

/-- **C3**: mass conservation.  After any sequence of valid reports the total
mass `Σ entry.value * entry.len` — over the single weight map of a linear
`Searcher`, or over all per-segment weight maps of a `CompressedDAGSearcher` —
is within `1e-9` of 1; with the `f64` arithmetic modelled exactly in `ℚ` it
is exactly 1. -/
theorem C3_mass_conservation (N : ℕ) (ops : List (ℕ × Bool × ℚ))
    (hval : ∀ op ∈ ops, op.1 < N ∧ 0 ≤ op.2.2)
    (g : DAG) (hgpos : ∀ nd ∈ g.nodes, 0 < nd.value) (hgne : g.nodes ≠ [])
    (dops : List (ℕ × ℕ × Bool × ℚ))
    (hdval : ∀ op ∈ dops,
      op.2.1 + 1 ≤ ((g.nodes[op.1]?).map DAGNode.value).getD 0 ∧ 0 ≤ op.2.2.2) :
    |massList (runReports (Searcher.new N) ops).weights.values - 1| < 1 / 10 ^ 9 ∧
    massList (runReports (Searcher.new N) ops).weights.values = 1 ∧
    |(runDagReports (CompressedDAGSearcher.new g) dops).totalMass - 1| < 1 / 10 ^ 9 ∧
    (runDagReports (CompressedDAGSearcher.new g) dops).totalMass = 1 := by
  have h1 := (runReports_invariant N ops hval).2.2.2
  have h2 := (runDagReports_invariant g hgpos hgne dops hdval).2.2
  refine ⟨?_, h1, ?_, h2⟩
  · rw [h1]
    norm_num
  · rw [h2]
    norm_num

/-- Witness for C3: one heads report on a `Searcher(1)` and one on a
single-segment graph of one node. -/
theorem C3_mass_conservation_witness :
    (∀ op ∈ [((0 : ℕ), true, (1 : ℚ))], op.1 < 1 ∧ 0 ≤ op.2.2) ∧
    (∀ nd ∈ (⟨[⟨1, [], ∅, []⟩]⟩ : DAG).nodes, 0 < nd.value) ∧
    (⟨[⟨1, [], ∅, []⟩]⟩ : DAG).nodes ≠ [] ∧
    (∀ op ∈ [((0 : ℕ), (0 : ℕ), true, (1 : ℚ))],
      op.2.1 + 1 ≤ (((⟨[⟨1, [], ∅, []⟩]⟩ : DAG).nodes[op.1]?).map DAGNode.value).getD 0
        ∧ 0 ≤ op.2.2.2) ∧
    (|massList (runReports (Searcher.new 1) [((0 : ℕ), true, (1 : ℚ))]).weights.values - 1|
        < 1 / 10 ^ 9 ∧
      massList (runReports (Searcher.new 1) [((0 : ℕ), true, (1 : ℚ))]).weights.values = 1 ∧
      |(runDagReports (CompressedDAGSearcher.new (⟨[⟨1, [], ∅, []⟩]⟩ : DAG))
          [((0 : ℕ), (0 : ℕ), true, (1 : ℚ))]).totalMass - 1| < 1 / 10 ^ 9 ∧
      (runDagReports (CompressedDAGSearcher.new (⟨[⟨1, [], ∅, []⟩]⟩ : DAG))
          [((0 : ℕ), (0 : ℕ), true, (1 : ℚ))]).totalMass = 1) :=
  ⟨by decide, by decide, by decide, by decide,
    C3_mass_conservation 1 _ (by decide) _ (by decide) (by decide) _ (by decide)⟩

end RobustBS

